import Mathlib

/-!
Verification of the EquaGrid equation-validation and win-detection engine.

This file gives a shallow embedding of the core game logic:

* `preprocess` embeds `preprocess_equation_string` (src/logic.py, lines 27-55),
* `is_valid_equation` embeds `is_valid_equation` (src/logic.py, lines 59-159),
* `find_win` embeds `check_win_board` (src/logic.py, lines 163-252),
* `can_place_variable` embeds `is_variable_placement_valid` (src/gui.py,
  lines 579-615).

Raw character runs are modelled as `List Char`, boards as `List (List Char)`.

The Python code delegates expression parsing and equation solving to the
external sympy library; that external capability is not part of this
repository, so it is modelled from the specification (section 4.2): each
side of the equation is parsed as an arithmetic expression over integer
literals, the single player variable and the operators `+ - * /` with
standard precedence and left-to-right associativity, division by a literal
zero or any malformed token being a parse failure.  Since the grammar has
no parentheses, every parsed side denotes a Laurent polynomial in the
variable with rational coefficients; equation solving enumerates the
rational roots of the difference of the two sides (candidates ordered
ascending, mirroring the sorted output of the reference solver) and the
the denominator check of the reference solver excludes candidates that
zero a denominator of the original equation.
-/

namespace EquaGrid

/-- `MIN_EQ_LEN` from src/constants.py. -/
def MIN_EQ_LEN : ℕ := 5

/-- `EMPTY_CELL` from src/constants.py. -/
def EMPTY_CELL : Char := ' '

/-- The two player ids of `PLAYERS` in src/constants.py. -/
inductive PlayerId where
  | A : PlayerId
  | B : PlayerId
deriving DecidableEq, Repr

/-- `PLAYERS[pid]['symbol']` from src/constants.py: `'x'` for A, `'y'` for B. -/
def symbolOf : PlayerId → Char
  | .A => 'x'
  | .B => 'y'

/-- The other player (`opponent_pid = 'B' if self.player_id == 'A' else 'A'`). -/
def oppId : PlayerId → PlayerId
  | .A => .B
  | .B => .A

/-- Membership in the dynamic symbol set
`{p['symbol'] for p in PLAYERS.values()}` of `preprocess_equation_string`. -/
def isPlayerSym (c : Char) : Bool := c == 'x' || c == 'y'

/-- Membership in the operator string `'+-*/='` used by
`preprocess_equation_string`. -/
def isOpChar (c : Char) : Bool := c == '+' || c == '-' || c == '*' || c == '/' || c == '='

/-- The opponent-symbol lookup of `is_valid_equation` (src/logic.py, lines
72-76): iterate `PLAYERS` in order A, B and take the first symbol different
from `player_var`. -/
def opponentSymbol (player_var : Char) : Char :=
  if 'x' ≠ player_var then 'x' else 'y'

/-- Fuelled worker for `preprocess`.  The fuel only bounds the recursion
depth (each step consumes at least one character, so `l.length` fuel is
always enough); it keeps the definition structurally recursive. -/
def preprocessF : ℕ → List Char → List Char
  | 0, _ => []
  | _, [] => []
  | fuel + 1, ch :: rest =>
    if ch.isDigit then
      -- coalesce the maximal digit run, then insert '*' if a variable follows
      (ch :: rest.takeWhile Char.isDigit)
        ++ (match rest.dropWhile Char.isDigit with
            | c :: _ => if isPlayerSym c then ['*'] else []
            | [] => [])
        ++ preprocessF fuel (rest.dropWhile Char.isDigit)
    else if isPlayerSym ch then
      -- variable; insert '*' if a digit follows
      ch :: ((match rest with
              | c :: _ => if c.isDigit then ['*'] else []
              | [] => [])
             ++ preprocessF fuel rest)
    else if isOpChar ch then
      ch :: preprocessF fuel rest
    else
      -- silently skip any other character
      preprocessF fuel rest

/-- `preprocess_equation_string` from src/logic.py (lines 27-55): coalesce
digit runs and insert implicit `*` between a number and a player variable
(in either order); operators and `=` pass through; anything else is
dropped. -/
def preprocess (l : List Char) : List Char := preprocessF l.length l

/-- A Laurent polynomial over ℚ in one indeterminate, as an
exponent-sorted association list of monomials with nonzero coefficients
(the canonical form mirrors the automatically simplified sympy expression
a parenthesis-free arithmetic string denotes). -/
abbrev LP := List (ℤ × ℚ)

/-- Add the monomial `c * X^e` to a canonical `LP`, keeping canonicity. -/
def addMono (e : ℤ) (c : ℚ) : LP → LP
  | [] => if c = 0 then [] else [(e, c)]
  | (e', c') :: t =>
    if e < e' then (if c = 0 then (e', c') :: t else (e, c) :: (e', c') :: t)
    else if e = e' then (if c + c' = 0 then t else (e, c + c') :: t)
    else (e', c') :: addMono e c t

/-- Negation of a Laurent polynomial. -/
def negLP (p : LP) : LP := p.map fun m => (m.1, -m.2)

/-- Sum of two Laurent polynomials. -/
def addLP (p q : LP) : LP := p.foldr (fun m acc => addMono m.1 m.2 acc) q

/-- Difference of two Laurent polynomials. -/
def subLP (p q : LP) : LP := addLP p (negLP q)

/-- Value of a Laurent polynomial at `q` (using the junk value `0 ^ (-n) = 0`
of `zpow`; definedness at `0` is tracked separately by `minExp`). -/
def evalLP (p : LP) (q : ℚ) : ℚ := p.foldr (fun m acc => m.2 * q ^ m.1 + acc) 0

/-- Least exponent of a canonical Laurent polynomial (`0` for the zero
polynomial).  Negative iff the expression has the variable in a
denominator. -/
def minExp : LP → ℤ
  | [] => 0
  | m :: _ => m.1

/-- Canonicity of the association-list representation: exponents strictly
ascending, coefficients nonzero.  All polynomials built by the parser and
the solver are canonical, so structural equality of `LP` values is
equality of Laurent polynomials. -/
def Canon (p : LP) : Prop :=
  List.Sorted (fun a b : ℤ × ℚ => a.1 < b.1) p ∧ ∀ m ∈ p, m.2 ≠ 0

/-- Coefficient of `X^e` in `p`. -/
def coeffAt (p : LP) (e : ℤ) : ℚ :=
  ((p.find? fun m => decide (m.1 = e)).map (·.2)).getD 0

/-- Whether the parsed expression still contains the variable (sympy's
`expr.has(var)` on the automatically simplified form). -/
def hasVar (p : LP) : Prop := ∃ m ∈ p, m.1 ≠ 0

instance (p : LP) : Decidable (hasVar p) := by unfold hasVar; infer_instance

/-- Numeric value of a digit character. -/
def digitVal (c : Char) : ℕ := c.toNat - '0'.toNat

/-- Decimal value of a digit run. -/
def digitsToNat (l : List Char) : ℕ := l.foldl (fun a c => 10 * a + digitVal c) 0

/-- Modelled from the spec: one *factor* of the expression grammar of
section 4.2 (optional unary signs followed by an integer literal or the
variable `vc`); the missing code is the sympy string parser used by
`is_valid_equation`.  Returns the factor as a monomial together with the
unconsumed input, or `none` on a malformed token. -/
def parseFactor (vc : Char) (l : List Char) : Option ((ℤ × ℚ) × List Char) :=
  let sgn : ℚ := if ((l.takeWhile fun c => c == '+' || c == '-').count '-') % 2 = 1 then -1 else 1
  match l.dropWhile fun c => c == '+' || c == '-' with
  | [] => none
  | c :: t =>
    if c.isDigit then
      some ((0, sgn * (digitsToNat (c :: t.takeWhile Char.isDigit) : ℚ)), t.dropWhile Char.isDigit)
    else if c = vc then some ((1, sgn), t)
    else none

/-- Modelled from the spec: the `(('*'|'/') factor)*` tail of a *term*
(section 4.2's left-associative same-precedence chain); division by a
factor with zero coefficient is a parse failure ("division by a literal
zero ... is a parse failure").  Fuel-structural; `l.length` fuel always
suffices. -/
def parseTermLoop (vc : Char) : ℕ → (ℤ × ℚ) → List Char → Option ((ℤ × ℚ) × List Char)
  | 0, _, _ => none
  | fuel + 1, acc, l =>
    match l with
    | '*' :: rest =>
      match parseFactor vc rest with
      | some (m, rest') => parseTermLoop vc fuel (acc.1 + m.1, acc.2 * m.2) rest'
      | none => none
    | '/' :: rest =>
      match parseFactor vc rest with
      | some (m, rest') =>
        if m.2 = 0 then none else parseTermLoop vc fuel (acc.1 - m.1, acc.2 / m.2) rest'
      | none => none
    | _ => some (acc, l)

/-- Modelled from the spec: a *term* (a factor followed by `*`/`/`
factors), producing a monomial. -/
def parseTerm (vc : Char) (fuel : ℕ) (l : List Char) : Option ((ℤ × ℚ) × List Char) :=
  match parseFactor vc l with
  | some (m, rest) => parseTermLoop vc fuel m rest
  | none => none

/-- Modelled from the spec: the `(('+'|'-') term)*` tail of an expression,
accumulating the canonical Laurent polynomial. -/
def parseExprLoop (vc : Char) : ℕ → LP → List Char → Option (LP × List Char)
  | 0, _, _ => none
  | fuel + 1, acc, l =>
    match l with
    | '+' :: rest =>
      match parseTerm vc fuel rest with
      | some (m, rest') => parseExprLoop vc fuel (addMono m.1 m.2 acc) rest'
      | none => none
    | '-' :: rest =>
      match parseTerm vc fuel rest with
      | some (m, rest') => parseExprLoop vc fuel (addMono m.1 (-m.2) acc) rest'
      | none => none
    | _ => some (acc, l)

/-- Modelled from the spec: a full arithmetic expression over integer
literals, the single variable and `+ - * /` (section 4.2). -/
def parseExpr (vc : Char) (fuel : ℕ) (l : List Char) : Option (LP × List Char) :=
  match parseTerm vc fuel l with
  | some (m, rest) => parseExprLoop vc fuel (addMono m.1 m.2 []) rest
  | none => none

/-- Modelled from the spec: parse one full side of the equation (the
`sympify` call of `is_valid_equation`); the whole side must be consumed. -/
def parseSide (vc : Char) (l : List Char) : Option LP :=
  match parseExpr vc (l.length + 1) l with
  | some (p, []) => some p
  | _ => none

/-- The side to the left of the single `=` (`processed.split('=', 1)[0]`),
with an empty side replaced by the literal `0`. -/
def lhsStr (processed : List Char) : List Char :=
  let s := processed.takeWhile (· ≠ '=')
  if s = [] then ['0'] else s

/-- The side to the right of the single `=` (`processed.split('=', 1)[1]`),
with an empty side replaced by the literal `0`. -/
def rhsStr (processed : List Char) : List Char :=
  let s := (processed.dropWhile (· ≠ '=')).tail
  if s = [] then ['0'] else s

/-- The divisors `1, ..., n` of a natural number, ascending. -/
def divisorsList (n : ℕ) : List ℕ :=
  ((List.range n).map (· + 1)).filter (· ∣ n)

/-- A common denominator of all coefficients of `p`. -/
def lcmDen (p : LP) : ℕ := p.foldr (fun m a => Nat.lcm m.2.den a) 1

/-- Modelled from the spec: all rational roots of a (shifted) polynomial
`p` with nonnegative exponents, ascending.  Candidates come from the
rational root theorem applied to the integer polynomial obtained by
clearing denominators: a nonzero root's numerator divides the lowest
nonzero coefficient and its denominator divides the leading coefficient;
`0` is also a candidate (it is a root exactly when the least exponent is
positive).  Only actual roots are kept, without duplicates. -/
def ratRoots (p : LP) : List ℚ :=
  match p with
  | [] => []
  | (_, c0) :: _ =>
    let D : ℕ := lcmDen p
    let a0 : ℤ := (c0 * D).num
    let an : ℤ := (((p.getLast?.map (·.2)).getD c0) * D).num
    let cands : List ℚ :=
      (0 : ℚ) ::
        (divisorsList a0.natAbs).flatMap fun d1 =>
          (divisorsList an.natAbs).flatMap fun d2 =>
            [((d1 : ℚ) / (d2 : ℚ)), -((d1 : ℚ) / (d2 : ℚ))]
    List.insertionSort (· ≤ ·) ((cands.filter fun q => decide (evalLP p q = 0)).dedup)

/-- Modelled from the spec: `solve(Eq(lhs, rhs), var)` of
`is_valid_equation`.  Solve `lhs - rhs = 0`: shift the difference to a
polynomial with nonnegative exponents and enumerate its rational roots;
candidates that zero a denominator of the original equation (possible
only when a side has a negative exponent) are excluded, as the reference
solver's default checking does. -/
def solveLaurent (l r : LP) : List ℚ :=
  let d := subLP l r
  let sh : ℤ := min (minExp d) 0
  let p : LP := d.map fun m => (m.1 - sh, m.2)
  let roots := ratRoots p
  if minExp l < 0 ∨ minExp r < 0 then roots.filter (fun q => decide (q ≠ 0)) else roots

/-- The per-candidate acceptance of `is_valid_equation` (src/logic.py,
lines 126-150) restricted to the rational candidates the modelled solver
produces: an exact integer (`is_Integer`, or `is_Rational` with
denominator 1) is accepted as is; any other rational is real, so it is
accepted, rounded, when within `1e-10` of its nearest integer; otherwise
the candidate is rejected. -/
def acceptCandidate (s : ℚ) : Option ℤ :=
  if s.den = 1 then some s.num
  else if |s - (round s : ℚ)| < 1 / 10 ^ 10 then some (round s)
  else none

/-- `is_valid_equation` from src/logic.py (lines 59-159): structural
prechecks, preprocessing, the `=`-presence and operator-presence checks,
parsing both sides, the variable-presence and triviality/identity checks,
then solving and scanning the candidate solutions in order for the first
acceptable integer. -/
def is_valid_equation (raw : List Char) (player_var : Char) : Option ℤ :=
  if raw.length < MIN_EQ_LEN then none
  else if raw.count '=' ≠ 1 then none
  else if player_var ∉ raw then none
  else if opponentSymbol player_var ∈ raw then none
  else
    let processed := preprocess raw
    if '=' ∉ processed then none
    else if ¬('+' ∈ processed ∨ '-' ∈ processed ∨ '*' ∈ processed ∨ '/' ∈ processed) then none
    else
      match parseSide player_var (lhsStr processed), parseSide player_var (rhsStr processed) with
      | some lhs, some rhs =>
        if ¬(hasVar lhs ∨ hasVar rhs) then none
        else if lhs = rhs ∧ ¬hasVar lhs then none
        else if lhs = rhs ∧ hasVar lhs then none
        else (solveLaurent lhs rhs).findSome? acceptCandidate
      | _, _ => none

/-- The successful result of `check_win_board` (its
`(True, coords, raw, solution)` return tuple; `WinResult` of the spec). -/
structure WinResult where
  coordinates : List (ℤ × ℤ)
  equationText : List Char
  solution : ℤ
deriving DecidableEq, Repr

/-- The validation step `check_win_board` performs on an accumulated run:
if the run has reached `MIN_EQ_LEN`, try the string as written and then,
on failure, the character-reversed string (src/logic.py, lines 189-199,
215-225 and 235-245; all three sites are identical). -/
def tryWin (raw : List Char) (coords : List (ℤ × ℤ)) (sym : Char) : Option WinResult :=
  if MIN_EQ_LEN ≤ raw.length then
    match is_valid_equation raw sym with
    | some sol => some ⟨coords, raw, sol⟩
    | none =>
      match is_valid_equation raw.reverse sym with
      | some sol => some ⟨coords, raw.reverse, sol⟩
      | none => none
  else none

/-- The cell visited at step `i` of the walk from origin `(r0, c0)` in
direction `d` (`r, c = r0 + i * dr, c0 + i * dc`). -/
def posAt (r0 c0 : ℕ) (d : ℤ × ℤ) (i : ℕ) : ℤ × ℤ :=
  ((r0 : ℤ) + (i : ℤ) * d.1, (c0 : ℤ) + (i : ℤ) * d.2)

/-- Whether `(r, c)` is inside the `size × size` board (the bound checks
`0 <= r < size and 0 <= c < size` of `check_win_board` and
`is_variable_placement_valid`). -/
def inBounds (size : ℕ) (p : ℤ × ℤ) : Prop :=
  (0 ≤ p.1 ∧ p.1 < (size : ℤ)) ∧ (0 ≤ p.2 ∧ p.2 < (size : ℤ))

instance (size : ℕ) (p : ℤ × ℤ) : Decidable (inBounds size p) := by
  unfold inBounds; infer_instance

/-- The board cell at `p`: `some` of the stored character when `p` is in
bounds and the row access succeeds, `none` otherwise (out of bounds, or
the `IndexError` case of a malformed board). -/
def cellAt (board : List (List Char)) (size : ℕ) (p : ℤ × ℤ) : Option Char :=
  if inBounds size p then board[p.1.toNat]?.bind fun row => row[p.2.toNat]? else none

/-- The inner `for i in range(size)` loop of `check_win_board`
(src/logic.py, lines 183-245), walking outward from `(r0, c0)` in
direction `(dr, dc)` with the accumulated run `raw, coords`.  The fuel is
the number of loop iterations left (`size - i`); when it runs out the
loop has ended without a win in this direction.  An out-of-bounds step
and an empty cell validate the run accumulated so far and stop; a failed
row access (the `except IndexError` branch, `cellAt` giving `none` in
bounds) stops without validating; a non-empty cell is appended and the
extended run validated at once. -/
def scanStep (board : List (List Char)) (size : ℕ) (sym : Char) (r0 c0 : ℕ) (d : ℤ × ℤ) :
    ℕ → ℕ → List Char → List (ℤ × ℤ) → Option WinResult
  | 0, _, _, _ => none
  | fuel + 1, i, raw, coords =>
    if inBounds size (posAt r0 c0 d i) then
      match cellAt board size (posAt r0 c0 d i) with
      | none => none
      | some ch =>
        if ch = EMPTY_CELL then tryWin raw coords sym
        else
          match tryWin (raw ++ [ch]) (coords ++ [posAt r0 c0 d i]) sym with
          | some w => some w
          | none =>
            scanStep board size sym r0 c0 d fuel (i + 1) (raw ++ [ch])
              (coords ++ [posAt r0 c0 d i])
    else tryWin raw coords sym

/-- `check_win_board` from src/logic.py (lines 163-252): origins in
row-major order, the 8 directions in the source's fixed order, first
successful validation wins; the `if not board` guard returns "no win" for
an empty board list. -/
def find_win (board : List (List Char)) (size : ℕ) (sym : Char) : Option WinResult :=
  if board = [] then none
  else
    (List.range size).findSome? fun r0 =>
      (List.range size).findSome? fun c0 =>
        [((0 : ℤ), (1 : ℤ)), (1, 0), (1, 1), (1, -1), (0, -1), (-1, 0), (-1, -1), (-1, 1)].findSome?
          fun d => scanStep board size sym r0 c0 d size 0 [] []

/-- `some` of the character at `p` when that cell exists and is non-empty,
`none` otherwise; a run extends exactly over cells where this is `some`. -/
def keepCell (board : List (List Char)) (size : ℕ) (p : ℤ × ℤ) : Option Char :=
  match cellAt board size p with
  | some ch => if ch = EMPTY_CELL then none else some ch
  | none => none

/-- The positions a walk from `(r0, c0)` in direction `d` may visit
(steps `0` to `size - 1`). -/
def rayPos (size : ℕ) (r0 c0 : ℕ) (d : ℤ × ℤ) : List (ℤ × ℤ) :=
  (List.range size).map (posAt r0 c0 d)

/-- The Run of the spec: positions of the maximal prefix of the ray whose
cells exist and are non-empty. -/
def runPositions (board : List (List Char)) (size : ℕ) (r0 c0 : ℕ) (d : ℤ × ℤ) :
    List (ℤ × ℤ) :=
  (rayPos size r0 c0 d).takeWhile fun p => (keepCell board size p).isSome

/-- The characters of the Run, in walk order. -/
def runChars (board : List (List Char)) (size : ℕ) (r0 c0 : ℕ) (d : ℤ × ℤ) : List Char :=
  (runPositions board size r0 c0 d).map fun p => (cellAt board size p).getD EMPTY_CELL

/-- Whether the walk along `(r0, c0), d` ends at a validating boundary:
the Run stops before exhausting the loop, at an off-board step or an
empty cell (a failed row access stops the walk without validating). -/
def validatingBoundary (board : List (List Char)) (size : ℕ) (r0 c0 : ℕ) (d : ℤ × ℤ) : Prop :=
  let n := (runPositions board size r0 c0 d).length
  n < size ∧ (¬inBounds size (posAt r0 c0 d n) ∨ cellAt board size (posAt r0 c0 d n) = some EMPTY_CELL)

instance (board : List (List Char)) (size : ℕ) (r0 c0 : ℕ) (d : ℤ × ℤ) :
    Decidable (validatingBoundary board size r0 c0 d) := by
  unfold validatingBoundary; infer_instance

/-- The candidate enumeration the spec prescribes for one (origin,
direction) pair: validate every prefix of the Run, shortest first,
starting as soon as the length reaches `MIN_EQ_LEN` (forward before
reversed, inside `tryWin`), and validate the whole Run once more at a
board-edge or empty-cell boundary; the first success is the result. -/
def rayCandidates (board : List (List Char)) (size : ℕ) (sym : Char) (r0 c0 : ℕ)
    (d : ℤ × ℤ) : Option WinResult :=
  let rp := runPositions board size r0 c0 d
  let rc := runChars board size r0 c0 d
  let n := rp.length
  match (List.range' MIN_EQ_LEN (n + 1 - MIN_EQ_LEN)).findSome?
      (fun L => tryWin (rc.take L) (rp.take L) sym) with
  | some w => some w
  | none => if validatingBoundary board size r0 c0 d then tryWin rc rp sym else none

/-- The whole scan as the spec describes it: origins row-major, then the
fixed direction order, then the per-ray candidate enumeration of
`rayCandidates`; the first `WinResult` in this ordering, "no win" only
after exhausting all origins and directions. -/
def find_win_spec (board : List (List Char)) (size : ℕ) (sym : Char) : Option WinResult :=
  (List.range size).findSome? fun r0 =>
    (List.range size).findSome? fun c0 =>
      [((0 : ℤ), (1 : ℤ)), (1, 0), (1, 1), (1, -1), (0, -1), (-1, 0), (-1, -1), (-1, 1)].findSome?
        fun d => rayCandidates board size sym r0 c0 d

/-- One step of the placement-rule walk of `is_variable_placement_valid`
(src/gui.py, lines 592-613): `some false` when the cell holds the
opponent's variable (placement forbidden along this ray), `some true`
when the walk stops otherwise (edge reached, row access failed, or a
blocking non-empty cell), `none` when the cell is empty and the walk
continues. -/
def stepVerdict (board : List (List Char)) (size : ℕ) (r c : ℤ) (d : ℤ × ℤ) (opp : Char)
    (i : ℕ) : Option Bool :=
  match cellAt board size (r + (i : ℤ) * d.1, c + (i : ℤ) * d.2) with
  | none => some true
  | some ch => if ch = opp then some false else if ch ≠ EMPTY_CELL then some true else none

/-- Whether one of the 8 rays permits the placement: the walk
`for i in range(1, board_size)` stopped at the first decisive cell, and
an undecided walk (all empty to the end) permits. -/
def rayPermits (board : List (List Char)) (size : ℕ) (r c : ℤ) (d : ℤ × ℤ) (opp : Char) :
    Bool :=
  ((List.range' 1 (size - 1)).findSome? (stepVerdict board size r c d opp)).getD true

/-- `is_variable_placement_valid` from src/gui.py (lines 579-615): the
mover's own symbol (`my_sym` in the source) plays no role in the check;
placement is legal iff every one of the 8 directions (the source's
`dr, dc` double loop order) permits it. -/
def can_place_variable (board : List (List Char)) (size : ℕ) (r c : ℤ) (pid : PlayerId) :
    Bool :=
  let opp_sym := symbolOf (oppId pid)
  [((-1 : ℤ), (-1 : ℤ)), (-1, 0), (-1, 1), (0, -1), (0, 1), (1, -1), (1, 0), (1, 1)].all
    fun d => rayPermits board size r c d opp_sym

/-- The all-empty `size × size` board (the state after a reset). -/
def emptyBoard (size : ℕ) : List (List Char) :=
  List.replicate size (List.replicate size EMPTY_CELL)

/-- Modelled from the spec: `q` solves the parsed equation `l = r` — both
sides are defined at `q` (a side with a negative exponent has the
variable in a denominator, so `q` must be nonzero) and their values
agree. -/
def isSolution (l r : LP) (q : ℚ) : Prop :=
  (minExp l < 0 ∨ minExp r < 0 → q ≠ 0) ∧ evalLP l q = evalLP r q

instance (l r : LP) (q : ℚ) : Decidable (isSolution l r q) := by
  unfold isSolution; infer_instance

/-- The solution acceptance rule as the spec words it: an exact integer
(a rational with denominator 1) is returned as is; a finite real value
within `1e-10` of its nearest integer is returned rounded to that
integer; anything else is rejected. -/
def acceptSpec (s : ℚ) : Option ℤ :=
  if s.den = 1 then some s.num
  else if |s - (round s : ℚ)| < 1 / 10 ^ 10 then some (round s)
  else none

/-- A 6 × 6 board whose only placed symbols form the winning line
`x+2=5` in row 2. -/
def cexBoardA : List (List Char) :=
  ["      ".toList, "      ".toList, "x+2=5 ".toList,
   "      ".toList, "      ".toList, "      ".toList]

/-- `cexBoardA` with the additional line `x+1=3` in row 0; it agrees with
`cexBoardA` on all of row 2. -/
def cexBoardB : List (List Char) :=
  ["x+1=3 ".toList, "      ".toList, "x+2=5 ".toList,
   "      ".toList, "      ".toList, "      ".toList]

/-- A 5 × 5 board with the winning line `x+2=5` in row 0. -/
def winBoard : List (List Char) :=
  ["x+2=5".toList, "     ".toList, "     ".toList, "     ".toList, "     ".toList]

/-- `winBoard` with an extra `7` at cell (4,4), away from the winning
line. -/
def winBoardAlt : List (List Char) :=
  ["x+2=5".toList, "     ".toList, "     ".toList, "     ".toList, "    7".toList]

attribute [local semireducible] Rat.add Rat.mul Rat.inv Rat.sub Rat.ofScientific

/-- C5: every string failing one of the four structural prechecks of
`is_valid_equation` (length below `MIN_EQ_LEN`, `=`-count different from
one, missing player variable, opponent variable present) is rejected. -/
theorem claim5_prechecks (raw : List Char) (v : Char)
    (h : raw.length < MIN_EQ_LEN ∨ raw.count '=' ≠ 1 ∨ v ∉ raw ∨ opponentSymbol v ∈ raw) :
    is_valid_equation raw v = none := by
  simp only [is_valid_equation]
  split_ifs <;> first | rfl | tauto

/-- Witness for C5 at the concrete input `1+2=3` (the player's variable
`x` does not occur). -/
theorem claim5_prechecks_witness : is_valid_equation "1+2=3".toList 'x' = none :=
  claim5_prechecks _ _ (Or.inr (Or.inr (Or.inl (by decide))))

/-- C10: when the normalized form of the input contains none of the four
arithmetic operator characters, `is_valid_equation` rejects it, whatever
else holds. -/
theorem claim10_no_operator (raw : List Char) (v : Char)
    (h : '+' ∉ preprocess raw ∧ '-' ∉ preprocess raw ∧ '*' ∉ preprocess raw ∧
         '/' ∉ preprocess raw) :
    is_valid_equation raw v = none := by
  simp only [is_valid_equation]
  split_ifs <;> first | rfl | tauto

/-- Witness for C10 at `x=200`: all four structural prechecks pass, the
equation has the unique solution 200, yet validation rejects it. -/
theorem claim10_no_operator_witness : is_valid_equation "x=200".toList 'x' = none :=
  claim10_no_operator _ _ (by decide)

/-- C6: once both sides have been parsed, `is_valid_equation` rejects the
input when neither parsed side contains the variable, and also when the
two parsed sides are structurally identical (whether or not they contain
the variable). -/
theorem claim6_semantic_checks (raw : List Char) (v : Char) (l r : LP)
    (hdl : parseSide v (lhsStr (preprocess raw)) = some l)
    (hr : parseSide v (rhsStr (preprocess raw)) = some r)
    (h : (¬hasVar l ∧ ¬hasVar r) ∨ l = r) :
    is_valid_equation raw v = none := by
  simp only [is_valid_equation]
  split_ifs <;> try rfl
  rw [hdl, hr]
  rcases h with ⟨h1, h2⟩ | h1
  · simp [h1, h2]
  · subst h1
    by_cases hv : hasVar l <;> simp [hv]

/-- Witness for C6 at `x-x=5`: the left side normalizes to the variable-free
zero polynomial, so validation rejects the equation. -/
theorem claim6_semantic_checks_witness : is_valid_equation "x-x=5".toList 'x' = none :=
  claim6_semantic_checks _ _ [] [(0, 5)] (by decide) (by decide) (Or.inl (by decide))

/-- C9: the five concrete examples of the spec: `x+1=3` solves to 2,
`2x=10` (normalized `2*x=10`) solves to 5, `5=5` is rejected, `x=x` is
rejected, `x/0=1` is rejected. -/
theorem claim9_examples :
    is_valid_equation "x+1=3".toList 'x' = some 2 ∧
    is_valid_equation "2x=10".toList 'x' = some 5 ∧
    is_valid_equation "5=5".toList 'x' = none ∧
    is_valid_equation "x=x".toList 'x' = none ∧
    is_valid_equation "x/0=1".toList 'x' = none := by
  decide

/-- Counterexample to C1 as stated: the run `x=200` satisfies all four
structural prechecks, its normalized form parses as `lhs = rhs` with the
unique (rational, hence integer) solution 200 and the sides are neither a
trivial truth nor an identity, yet `is_valid_equation` returns no
solution (the operator precheck of src/logic.py line 84 rejects it). -/
theorem claim1_counterexample :
    (¬"x=200".toList.length < MIN_EQ_LEN ∧ "x=200".toList.count '=' = 1 ∧
      'x' ∈ "x=200".toList ∧ opponentSymbol 'x' ∉ "x=200".toList) ∧
    parseSide 'x' (lhsStr (preprocess "x=200".toList)) = some [(1, 1)] ∧
    parseSide 'x' (rhsStr (preprocess "x=200".toList)) = some [(0, 200)] ∧
    ([(1, 1)] : LP) ≠ [(0, 200)] ∧
    isSolution [(1, 1)] [(0, 200)] (200 : ℚ) ∧
    (∀ q : ℚ, isSolution [(1, 1)] [(0, 200)] q → q = 200) ∧
    is_valid_equation "x=200".toList 'x' = none := by
  refine ⟨by decide, by decide, by decide, by decide, by decide, ?_, by decide⟩
  intro q hq
  have h2 := hq.2
  simp only [evalLP, List.foldr, zpow_one, zpow_zero, one_mul, mul_one, add_zero] at h2
  linarith

/-- Counterexample to C4 as stated: `cexBoardB` agrees with `cexBoardA`
on every cell of the winning line `find_win` returns for `cexBoardA`
(row 2), yet `find_win` on `cexBoardB` returns a different `WinResult`
(the line `x+1=3` of row 0, found earlier in scan order). -/
theorem claim4_counterexample :
    find_win cexBoardA 6 'x' =
      some ⟨[(2, 0), (2, 1), (2, 2), (2, 3), (2, 4)], "x+2=5".toList, 3⟩ ∧
    (∀ p ∈ ([(2, 0), (2, 1), (2, 2), (2, 3), (2, 4)] : List (ℤ × ℤ)),
      cellAt cexBoardB 6 p = cellAt cexBoardA 6 p) ∧
    find_win cexBoardB 6 'x' =
      some ⟨[(0, 0), (0, 1), (0, 2), (0, 3), (0, 4)], "x+1=3".toList, 2⟩ ∧
    (⟨[(0, 0), (0, 1), (0, 2), (0, 3), (0, 4)], "x+1=3".toList, 2⟩ : WinResult) ≠
      ⟨[(2, 0), (2, 1), (2, 2), (2, 3), (2, 4)], "x+2=5".toList, 3⟩ := by
  refine ⟨by decide, by decide, by decide, by decide⟩

/-- A walk over consecutive indices, defaulting to `true`, returns `false`
exactly when some step is the first to decide and decides `false`. -/
theorem findSome_getD_false_iff (f : ℕ → Option Bool) :
    ∀ n s : ℕ, ((List.range' s n).findSome? f).getD true = false ↔
      ∃ i, s ≤ i ∧ i < s + n ∧ f i = some false ∧ ∀ j, s ≤ j → j < i → f j = none := by
  intro n
  induction n with
  | zero =>
    intro s
    rw [show List.range' s 0 = [] from rfl, List.findSome?_nil]
    simp only [Option.getD_none]
    constructor
    · intro h; cases h
    · rintro ⟨i, h1, h2, -, -⟩; omega
  | succ n ih =>
    intro s
    rw [show List.range' s (n + 1) = s :: List.range' (s + 1) n from rfl,
      List.findSome?_cons]
    cases hf : f s with
    | some b =>
      cases b with
      | false =>
        simp only [Option.getD_some]
        constructor
        · intro _
          exact ⟨s, le_refl s, by omega, hf, fun j h1 h2 => absurd h2 (by omega)⟩
        · intro _; trivial
      | true =>
        simp only [Option.getD_some]
        constructor
        · intro h; cases h
        · rintro ⟨i, h1, h2, h3, h4⟩
          rcases eq_or_lt_of_le h1 with rfl | h5
          · rw [hf] at h3; cases h3
          · have h6 := h4 s (le_refl s) h5
            rw [hf] at h6; cases h6
    | none =>
      rw [ih (s + 1)]
      constructor
      · rintro ⟨i, h1, h2, h3, h4⟩
        refine ⟨i, by omega, by omega, h3, fun j hj1 hj2 => ?_⟩
        rcases eq_or_lt_of_le hj1 with rfl | h5
        · exact hf
        · exact h4 j h5 hj2
      · rintro ⟨i, h1, h2, h3, h4⟩
        have hi : s + 1 ≤ i := by
          rcases eq_or_lt_of_le h1 with rfl | h5
          · rw [hf] at h3; cases h3
          · omega
        exact ⟨i, hi, by omega, h3, fun j hj1 hj2 => h4 j (by omega) hj2⟩

/-- A placement-walk step forbids the ray exactly when its cell holds the
opponent's variable. -/
theorem stepVerdict_false_iff (board : List (List Char)) (size : ℕ) (r c : ℤ)
    (d : ℤ × ℤ) (opp : Char) (i : ℕ) :
    stepVerdict board size r c d opp i = some false ↔
      cellAt board size (r + (i : ℤ) * d.1, c + (i : ℤ) * d.2) = some opp := by
  unfold stepVerdict
  cases h : cellAt board size (r + (i : ℤ) * d.1, c + (i : ℤ) * d.2) with
  | none => simp
  | some ch =>
    dsimp only
    split_ifs with h1 h2 <;> simp [h1]

/-- A placement-walk step is undecided exactly when its cell exists and is
empty (given that the opponent symbol is not the empty-cell character). -/
theorem stepVerdict_none_iff (board : List (List Char)) (size : ℕ) (r c : ℤ)
    (d : ℤ × ℤ) (opp : Char) (i : ℕ) (hopp : opp ≠ EMPTY_CELL) :
    stepVerdict board size r c d opp i = none ↔
      cellAt board size (r + (i : ℤ) * d.1, c + (i : ℤ) * d.2) = some EMPTY_CELL := by
  unfold stepVerdict
  cases h : cellAt board size (r + (i : ℤ) * d.1, c + (i : ℤ) * d.2) with
  | none => simp
  | some ch =>
    dsimp only
    split_ifs with h1 h2 <;> simp_all

/-- A ray forbids placement exactly when some cell along it, within the
walk's range, holds the first decisive content and that content decides
against (all nearer cells undecided). -/
theorem rayPermits_false_iff (board : List (List Char)) (size : ℕ) (r c : ℤ)
    (d : ℤ × ℤ) (opp : Char) :
    rayPermits board size r c d opp = false ↔
      ∃ i, 1 ≤ i ∧ i < size ∧ stepVerdict board size r c d opp i = some false ∧
        ∀ j, 1 ≤ j → j < i → stepVerdict board size r c d opp j = none := by
  unfold rayPermits
  rw [findSome_getD_false_iff]
  constructor
  · rintro ⟨i, h1, h2, h3, h4⟩; exact ⟨i, h1, by omega, h3, h4⟩
  · rintro ⟨i, h1, h2, h3, h4⟩; exact ⟨i, h1, by omega, h3, h4⟩

/-- Every existing cell of the all-empty board holds the empty-cell
character. -/
theorem cellAt_emptyBoard (size : ℕ) (p : ℤ × ℤ) (ch : Char)
    (h : cellAt (emptyBoard size) size p = some ch) : ch = EMPTY_CELL := by
  unfold cellAt emptyBoard at h
  split_ifs at h with hb
  · obtain ⟨⟨h1, h2⟩, h3, h4⟩ := hb
    have hr : p.1.toNat < size := by omega
    have hc : p.2.toNat < size := by omega
    simp [List.getElem?_replicate, hr, hc] at h
    exact h.symm

/-- C3: `can_place_variable` returns `false` iff along one of the 8 ray
directions the first non-empty cell (all nearer cells existing and
empty) holds the opponent's variable; consequently on an all-empty board
it returns `true` for every cell. -/
theorem claim3_placement_rule :
    (∀ (board : List (List Char)) (size : ℕ) (r c : ℤ) (pid : PlayerId),
      can_place_variable board size r c pid = false ↔
        ∃ d ∈ [((-1 : ℤ), (-1 : ℤ)), (-1, 0), (-1, 1), (0, -1), (0, 1), (1, -1), (1, 0), (1, 1)],
          ∃ i : ℕ, 1 ≤ i ∧ i < size ∧
            cellAt board size (r + (i : ℤ) * d.1, c + (i : ℤ) * d.2) =
              some (symbolOf (oppId pid)) ∧
            ∀ j : ℕ, 1 ≤ j → j < i →
              cellAt board size (r + (j : ℤ) * d.1, c + (j : ℤ) * d.2) = some EMPTY_CELL)
    ∧ ∀ (size : ℕ) (r c : ℤ) (pid : PlayerId),
        can_place_variable (emptyBoard size) size r c pid = true := by
  have hopp : ∀ pid : PlayerId, symbolOf (oppId pid) ≠ EMPTY_CELL := by
    intro pid; cases pid <;> decide
  have main : ∀ (board : List (List Char)) (size : ℕ) (r c : ℤ) (pid : PlayerId),
      can_place_variable board size r c pid = false ↔
        ∃ d ∈ [((-1 : ℤ), (-1 : ℤ)), (-1, 0), (-1, 1), (0, -1), (0, 1), (1, -1), (1, 0), (1, 1)],
          ∃ i : ℕ, 1 ≤ i ∧ i < size ∧
            cellAt board size (r + (i : ℤ) * d.1, c + (i : ℤ) * d.2) =
              some (symbolOf (oppId pid)) ∧
            ∀ j : ℕ, 1 ≤ j → j < i →
              cellAt board size (r + (j : ℤ) * d.1, c + (j : ℤ) * d.2) = some EMPTY_CELL := by
    intro board size r c pid
    simp only [can_place_variable]
    rw [List.all_eq_false]
    constructor
    · rintro ⟨d, hd, hperm⟩
      rw [Bool.not_eq_true, rayPermits_false_iff] at hperm
      obtain ⟨i, h1, h2, h3, h4⟩ := hperm
      exact ⟨d, hd, i, h1, h2, (stepVerdict_false_iff board size r c d _ i).mp h3,
        fun j hj1 hj2 =>
          (stepVerdict_none_iff board size r c d _ j (hopp pid)).mp (h4 j hj1 hj2)⟩
    · rintro ⟨d, hd, i, h1, h2, h3, h4⟩
      refine ⟨d, hd, ?_⟩
      rw [Bool.not_eq_true, rayPermits_false_iff]
      exact ⟨i, h1, h2, (stepVerdict_false_iff board size r c d _ i).mpr h3,
        fun j hj1 hj2 =>
          (stepVerdict_none_iff board size r c d _ j (hopp pid)).mpr (h4 j hj1 hj2)⟩
  refine ⟨main, ?_⟩
  intro size r c pid
  by_contra h
  rw [Bool.not_eq_true, main (emptyBoard size) size r c pid] at h
  obtain ⟨d, hd, i, h1, h2, h3, h4⟩ := h
  exact hopp pid (cellAt_emptyBoard size _ _ h3)

/-- C7: for an input that passes all prechecks and semantic checks, the
result of `is_valid_equation` is exactly the scan of the solver's
candidate list, in the solver's order, for the first acceptable
candidate (`acceptSpec`: an exact integer / rational with denominator 1,
or a value within `1e-10` of its nearest integer, rounded), and `none`
when no candidate qualifies. -/
theorem claim7_solution_acceptance (raw : List Char) (v : Char) (l r : LP)
    (h1 : ¬raw.length < MIN_EQ_LEN) (h2 : raw.count '=' = 1) (h3 : v ∈ raw)
    (h4 : opponentSymbol v ∉ raw) (h5 : '=' ∈ preprocess raw)
    (h6 : '+' ∈ preprocess raw ∨ '-' ∈ preprocess raw ∨ '*' ∈ preprocess raw ∨
          '/' ∈ preprocess raw)
    (hdl : parseSide v (lhsStr (preprocess raw)) = some l)
    (hdr : parseSide v (rhsStr (preprocess raw)) = some r)
    (hv : hasVar l ∨ hasVar r) (hne : l ≠ r)
    (hsols : solveLaurent l r ≠ []) :
    is_valid_equation raw v = (solveLaurent l r).findSome? acceptSpec := by
  simp only [is_valid_equation]
  rw [if_neg h1, if_neg (by simp [h2]), if_neg (by simp [h3]), if_neg h4,
    if_neg (by simp [h5]), if_neg (by simp [h6]), hdl, hdr]
  dsimp only
  rw [if_neg (by simp [hv]), if_neg (fun h => hne h.1), if_neg (fun h => hne h.1)]
  rfl

/-- Witness for C7 at `x*x=x+2`: the quadratic has the candidate list
`[-1, 2]`, and validation returns the scan of that list. -/
theorem claim7_solution_acceptance_witness :
    is_valid_equation "x*x=x+2".toList 'x' =
      (solveLaurent [(2, 1)] [(0, 2), (1, 1)]).findSome? acceptSpec :=
  claim7_solution_acceptance "x*x=x+2".toList 'x' [(2, 1)] [(0, 2), (1, 1)]
    (by decide) (by decide) (by decide) (by decide) (by decide) (by decide)
    (by decide) (by decide) (by decide) (by decide) (by decide)

theorem canon_nil : Canon ([] : LP) := ⟨List.sorted_nil, by simp⟩

theorem canon_cons_tail {m : ℤ × ℚ} {t : LP} (h : Canon (m :: t)) : Canon t :=
  ⟨(List.sorted_cons.mp h.1).2, fun x hx => h.2 x (List.mem_cons_of_mem m hx)⟩

/-- Every exponent of `addMono e c p` is `e` or an exponent of `p`. -/
theorem addMono_exp (e : ℤ) (c : ℚ) :
    ∀ p : LP, ∀ m ∈ addMono e c p, m.1 = e ∨ ∃ m' ∈ p, m.1 = m'.1 := by
  intro p
  induction p with
  | nil =>
    intro m hm
    simp only [addMono] at hm
    split_ifs at hm with h
    · cases hm
    · rcases List.mem_singleton.mp hm with rfl
      exact Or.inl rfl
  | cons hd t ih =>
    obtain ⟨e', c'⟩ := hd
    intro m hm
    simp only [addMono] at hm
    split_ifs at hm with h1 h2 h3 h4
    · exact Or.inr ⟨m, hm, rfl⟩
    · rcases List.mem_cons.mp hm with rfl | hm
      · exact Or.inl rfl
      · exact Or.inr ⟨m, hm, rfl⟩
    · exact Or.inr ⟨m, List.mem_cons_of_mem _ hm, rfl⟩
    · rcases List.mem_cons.mp hm with rfl | hm
      · exact Or.inl rfl
      · exact Or.inr ⟨m, List.mem_cons_of_mem _ hm, rfl⟩
    · rcases List.mem_cons.mp hm with rfl | hm
      · exact Or.inr ⟨(e', c'), List.mem_cons_self _ _, rfl⟩
      · rcases ih m hm with h | ⟨m', hm', he⟩
        · exact Or.inl h
        · exact Or.inr ⟨m', List.mem_cons_of_mem _ hm', he⟩

/-- `addMono` preserves canonicity. -/
theorem addMono_canon (e : ℤ) (c : ℚ) : ∀ p : LP, Canon p → Canon (addMono e c p) := by
  intro p
  induction p with
  | nil =>
    intro _
    simp only [addMono]
    split_ifs with hc
    · exact canon_nil
    · exact ⟨List.sorted_singleton _, by simpa using hc⟩
  | cons hd t ih =>
    obtain ⟨e', c'⟩ := hd
    intro h
    have ht := canon_cons_tail h
    have hlt : ∀ m ∈ t, e' < m.1 := fun m hm => (List.sorted_cons.mp h.1).1 m hm
    have hc' : c' ≠ 0 := h.2 _ (List.mem_cons_self _ _)
    simp only [addMono]
    split_ifs with h1 h2 h3 h4
    · exact h
    · refine ⟨List.sorted_cons.mpr ⟨?_, h.1⟩, ?_⟩
      · intro b hb
        rcases List.mem_cons.mp hb with rfl | hb
        · exact h1
        · exact lt_trans h1 (hlt b hb)
      · intro m hm
        rcases List.mem_cons.mp hm with rfl | hm
        · exact h2
        · exact h.2 m hm
    · exact ht
    · refine ⟨List.sorted_cons.mpr ⟨?_, ht.1⟩, ?_⟩
      · intro b hb
        exact h3 ▸ hlt b hb
      · intro m hm
        rcases List.mem_cons.mp hm with rfl | hm
        · exact h4
        · exact ht.2 m hm
    · have he : e' < e := by omega
      refine ⟨List.sorted_cons.mpr ⟨?_, (ih ht).1⟩, ?_⟩
      · intro b hb
        rcases addMono_exp e c t b hb with hb1 | ⟨m', hm', hb1⟩
        · exact hb1 ▸ he
        · exact hb1 ▸ hlt m' hm'
      · intro m hm
        rcases List.mem_cons.mp hm with rfl | hm
        · exact hc'
        · exact (ih ht).2 m hm

theorem evalLP_cons (m : ℤ × ℚ) (p : LP) (q : ℚ) :
    evalLP (m :: p) q = m.2 * q ^ m.1 + evalLP p q := rfl

theorem evalLP_addMono (e : ℤ) (c : ℚ) :
    ∀ (p : LP) (q : ℚ), evalLP (addMono e c p) q = c * q ^ e + evalLP p q := by
  intro p
  induction p with
  | nil =>
    intro q
    simp only [addMono]
    split_ifs with hc
    · simp [evalLP, hc]
    · simp [evalLP]
  | cons hd t ih =>
    obtain ⟨e', c'⟩ := hd
    intro q
    simp only [addMono]
    split_ifs with h1 h2 h3 h4
    · simp [evalLP_cons, h2]
    · simp only [evalLP_cons]
    · subst h3
      have hc : c = -c' := by linarith
      simp only [evalLP_cons, hc]; ring
    · subst h3
      simp only [evalLP_cons]; ring
    · simp only [evalLP_cons, ih]; ring

theorem evalLP_addLP : ∀ (p r : LP) (q : ℚ), evalLP (addLP p r) q = evalLP p q + evalLP r q := by
  intro p
  induction p with
  | nil => intro r q; simp [addLP, evalLP]
  | cons hd t ih =>
    intro r q
    show evalLP (addMono hd.1 hd.2 (addLP t r)) q = _
    rw [evalLP_addMono, ih, evalLP_cons]
    ring

theorem evalLP_negLP : ∀ (p : LP) (q : ℚ), evalLP (negLP p) q = -evalLP p q := by
  intro p
  induction p with
  | nil => intro q; simp [negLP, evalLP]
  | cons hd t ih =>
    intro q
    show (-hd.2) * q ^ hd.1 + evalLP (negLP t) q = _
    rw [ih, evalLP_cons]
    ring

theorem evalLP_subLP (l r : LP) (q : ℚ) : evalLP (subLP l r) q = evalLP l q - evalLP r q := by
  unfold subLP
  rw [evalLP_addLP, evalLP_negLP]
  ring

theorem negLP_canon (p : LP) (h : Canon p) : Canon (negLP p) := by
  constructor
  · unfold negLP
    rw [List.Sorted, List.pairwise_map]
    exact h.1
  · intro m hm
    rcases List.mem_map.mp hm with ⟨m', hm', rfl⟩
    simpa using h.2 m' hm'

theorem addLP_canon : ∀ p r : LP, Canon r → Canon (addLP p r) := by
  intro p
  induction p with
  | nil => intro r h; exact h
  | cons hd t ih =>
    intro r h
    exact addMono_canon hd.1 hd.2 _ (ih r h)

theorem subLP_canon (l r : LP) (hr : Canon r) : Canon (subLP l r) :=
  addLP_canon l _ (negLP_canon r hr)

/-- Every exponent of `addLP p r` is an exponent of `p` or of `r`. -/
theorem addLP_exp : ∀ p r : LP, ∀ m ∈ addLP p r,
    (∃ m' ∈ p, m.1 = m'.1) ∨ ∃ m' ∈ r, m.1 = m'.1 := by
  intro p
  induction p with
  | nil => intro r m hm; exact Or.inr ⟨m, hm, rfl⟩
  | cons hd t ih =>
    intro r m hm
    rcases addMono_exp hd.1 hd.2 (addLP t r) m hm with h | ⟨m', hm', he⟩
    · exact Or.inl ⟨hd, List.mem_cons_self _ _, h⟩
    · rcases ih r m' hm' with ⟨m2, hm2, he2⟩ | ⟨m2, hm2, he2⟩
      · exact Or.inl ⟨m2, List.mem_cons_of_mem _ hm2, he ▸ he2⟩
      · exact Or.inr ⟨m2, hm2, he ▸ he2⟩

/-- Every exponent of `subLP l r` is an exponent of `l` or of `r`. -/
theorem subLP_exp (l r : LP) : ∀ m ∈ subLP l r,
    (∃ m' ∈ l, m.1 = m'.1) ∨ ∃ m' ∈ r, m.1 = m'.1 := by
  intro m hm
  rcases addLP_exp l (negLP r) m hm with h | ⟨m', hm', he⟩
  · exact Or.inl h
  · rcases List.mem_map.mp hm' with ⟨m2, hm2, rfl⟩
    exact Or.inr ⟨m2, hm2, he⟩

theorem minExp_le (p : LP) (hc : Canon p) : ∀ m ∈ p, minExp p ≤ m.1 := by
  cases p with
  | nil => intro m hm; cases hm
  | cons hd t =>
    intro m hm
    rcases List.mem_cons.mp hm with rfl | hm
    · exact le_refl _
    · exact le_of_lt ((List.sorted_cons.mp hc.1).1 m hm)

theorem minExp_nonneg (p : LP) (h : ∀ m ∈ p, 0 ≤ m.1) : 0 ≤ minExp p := by
  cases p with
  | nil => exact le_refl 0
  | cons hd t => exact h hd (List.mem_cons_self _ _)

/-- `parseExprLoop` keeps the accumulated polynomial canonical. -/
theorem parseExprLoop_canon (vc : Char) :
    ∀ (fuel : ℕ) (acc : LP) (l : List Char) (p : LP) (rest : List Char),
      Canon acc → parseExprLoop vc fuel acc l = some (p, rest) → Canon p := by
  intro fuel
  induction fuel with
  | zero => intro acc l p rest _ h; cases h
  | succ fuel ih =>
    intro acc l p rest hc h
    simp only [parseExprLoop] at h
    split at h
    · split at h
      · exact ih _ _ _ _ (addMono_canon _ _ _ hc) h
      · cases h
    · split at h
      · exact ih _ _ _ _ (addMono_canon _ _ _ hc) h
      · cases h
    · simp only [Option.some.injEq, Prod.mk.injEq] at h
      exact h.1 ▸ hc

/-- Every successfully parsed side is a canonical Laurent polynomial. -/
theorem parseSide_canon (vc : Char) (l : List Char) (p : LP)
    (h : parseSide vc l = some p) : Canon p := by
  unfold parseSide at h
  split at h
  · rename_i p' heq
    simp only [Option.some.injEq] at h
    subst h
    unfold parseExpr at heq
    split at heq
    · exact parseExprLoop_canon vc _ _ _ _ _ (addMono_canon _ _ _ canon_nil) heq
    · cases heq
  · cases h

theorem evalLP_shift (d : LP) (sh : ℤ) (q : ℚ) (hq : q ≠ 0) :
    evalLP (d.map fun m => (m.1 - sh, m.2)) q = q ^ (-sh) * evalLP d q := by
  induction d with
  | nil => simp [evalLP]
  | cons hd t ih =>
    simp only [List.map_cons, evalLP_cons]
    rw [ih]
    have he : q ^ (hd.1 - sh) = q ^ hd.1 * q ^ (-sh) := by
      rw [← zpow_add₀ hq]
      congr 1
    rw [he]
    ring

theorem shift_canon (d : LP) (sh : ℤ) (h : Canon d) :
    Canon (d.map fun m => (m.1 - sh, m.2)) := by
  constructor
  · rw [List.Sorted, List.pairwise_map]
    exact h.1.imp (fun hab => by simpa using by omega)
  · intro m hm
    rcases List.mem_map.mp hm with ⟨m', hm', rfl⟩
    simpa using h.2 m' hm'

theorem lcmDen_ne_zero : ∀ p : LP, lcmDen p ≠ 0 := by
  intro p
  induction p with
  | nil => simp [lcmDen]
  | cons hd t ih => exact Nat.lcm_ne_zero hd.2.den_nz ih

theorem den_dvd_lcmDen : ∀ p : LP, ∀ m ∈ p, m.2.den ∣ lcmDen p := by
  intro p
  induction p with
  | nil => intro m hm; cases hm
  | cons hd t ih =>
    intro m hm
    rcases List.mem_cons.mp hm with rfl | hm
    · exact Nat.dvd_lcm_left _ _
    · exact dvd_trans (ih m hm) (Nat.dvd_lcm_right _ _)

/-- Multiplying a rational by a multiple of its denominator gives an
integer. -/
theorem scaled_int (c : ℚ) (D : ℕ) (hdvd : c.den ∣ D) :
    ((c * (D : ℚ)).num : ℚ) = c * (D : ℚ) := by
  obtain ⟨k, hk⟩ := hdvd
  have hden : (c.den : ℚ) ≠ 0 := Nat.cast_ne_zero.mpr c.den_nz
  have h1 : c * (D : ℚ) = ((c.num * k : ℤ) : ℚ) := by
    subst hk
    push_cast
    calc c * ((c.den : ℚ) * (k : ℚ))
        = (c.num / c.den) * ((c.den : ℚ) * (k : ℚ)) := by rw [Rat.num_div_den]
      _ = (c.num : ℚ) * (k : ℚ) := by rw [← mul_assoc, div_mul_cancel₀ _ hden]
  rw [h1, Rat.num_intCast]

theorem coeffAt_nil (e : ℤ) : coeffAt [] e = 0 := rfl

theorem coeffAt_cons (m : ℤ × ℚ) (t : LP) (e : ℤ) :
    coeffAt (m :: t) e = if m.1 = e then m.2 else coeffAt t e := by
  unfold coeffAt
  by_cases h : m.1 = e
  · rw [List.find?_cons_of_pos _ (by simpa using h), if_pos h]
    rfl
  · rw [List.find?_cons_of_neg _ (by simpa using h), if_neg h]

theorem coeffAt_eq_zero : ∀ (t : LP) (e : ℤ), (∀ m ∈ t, m.1 ≠ e) → coeffAt t e = 0 := by
  intro t
  induction t with
  | nil => intro e _; rfl
  | cons hd t ih =>
    intro e h
    rw [coeffAt_cons, if_neg (h hd (List.mem_cons_self _ _))]
    exact ih e fun m hm => h m (List.mem_cons_of_mem _ hm)

theorem coeffAt_mem : ∀ p : LP, Canon p → ∀ m ∈ p, coeffAt p m.1 = m.2 := by
  intro p
  induction p with
  | nil => intro _ m hm; cases hm
  | cons hd t ih =>
    intro hc m hm
    rcases List.mem_cons.mp hm with rfl | hm
    · rw [coeffAt_cons, if_pos rfl]
    · rw [coeffAt_cons,
        if_neg (ne_of_lt ((List.sorted_cons.mp hc.1).1 m hm))]
      exact ih (canon_cons_tail hc) m hm

theorem coeffAt_den_dvd (p : LP) (e : ℤ) : (coeffAt p e).den ∣ lcmDen p := by
  unfold coeffAt
  cases hf : p.find? fun m => decide (m.1 = e) with
  | none => exact one_dvd _
  | some m =>
    exact den_dvd_lcmDen p m (List.mem_of_find?_eq_some hf)

theorem le_getLast : ∀ (p : LP), Canon p → ∀ (hne : p ≠ []) m, m ∈ p →
    m.1 ≤ (p.getLast hne).1 := by
  intro p
  induction p with
  | nil => intro _ hne; exact absurd rfl hne
  | cons hd t ih =>
    intro hc hne m hm
    cases t with
    | nil =>
      rcases List.mem_cons.mp hm with rfl | hm
      · exact le_refl _
      · cases hm
    | cons hd2 t2 =>
      rw [List.getLast_cons (by simp)]
      rcases List.mem_cons.mp hm with rfl | hm
      · have hmem := List.getLast_mem (l := hd2 :: t2) (by simp)
        exact le_of_lt ((List.sorted_cons.mp hc.1).1 _ hmem)
      · exact ih (canon_cons_tail hc) (by simp) m hm

theorem getLast_map_snd (f : ℤ × ℚ → ℤ × ℚ) (hf : ∀ m, (f m).2 = m.2) :
    ∀ (p : LP) (hne : p ≠ []) (hne' : p.map f ≠ []),
      ((p.map f).getLast hne').2 = (p.getLast hne).2 := by
  intro p
  induction p with
  | nil => intro hne; exact absurd rfl hne
  | cons hd t ih =>
    intro hne hne'
    cases t with
    | nil => simpa using hf hd
    | cons hd2 t2 =>
      rw [show (List.map f (hd :: hd2 :: t2)).getLast hne' =
            (List.map f (hd2 :: t2)).getLast (by simp) from List.getLast_cons _,
          show (hd :: hd2 :: t2).getLast hne =
            (hd2 :: t2).getLast (by simp) from List.getLast_cons _]
      exact ih (by simp) (by simp)

theorem lcmDen_map_shift (p : LP) (sh : ℤ) :
    lcmDen (p.map fun m => (m.1 - sh, m.2)) = lcmDen p := by
  unfold lcmDen
  rw [List.foldr_map]

/-- A canonical polynomial with exponents in `[0, N]` as a dense sum of
its coefficients. -/
theorem evalLP_eq_sum : ∀ p : LP, Canon p → ∀ N : ℕ,
    (∀ m ∈ p, 0 ≤ m.1 ∧ m.1 ≤ (N : ℤ)) → ∀ q : ℚ,
    evalLP p q = ∑ i ∈ Finset.range (N + 1), coeffAt p (i : ℤ) * q ^ ((i : ℕ) : ℤ) := by
  intro p
  induction p with
  | nil =>
    intro _ N _ q
    simp [evalLP, coeffAt_nil]
  | cons hd t ih =>
    intro hc N hb q
    have ht := canon_cons_tail hc
    have hbt : ∀ m ∈ t, 0 ≤ m.1 ∧ m.1 ≤ (N : ℤ) := fun m hm =>
      hb m (List.mem_cons_of_mem _ hm)
    obtain ⟨hb0, hbN⟩ := hb hd (List.mem_cons_self _ _)
    have hdk : hd.1 = (hd.1.toNat : ℤ) := (Int.toNat_of_nonneg hb0).symm
    set k : ℕ := hd.1.toNat with hkdef
    have hk_mem : k ∈ Finset.range (N + 1) := Finset.mem_range.mpr (by omega)
    have hne : ∀ m ∈ t, m.1 ≠ (k : ℤ) := by
      intro m hm
      have hlt := (List.sorted_cons.mp hc.1).1 m hm
      omega
    have hsplit : ∀ i ∈ Finset.range (N + 1),
        coeffAt (hd :: t) (i : ℤ) * q ^ ((i : ℕ) : ℤ) =
        if i = k then hd.2 * q ^ ((i : ℕ) : ℤ) else coeffAt t (i : ℤ) * q ^ ((i : ℕ) : ℤ) := by
      intro i _
      rw [coeffAt_cons]
      by_cases h : i = k
      · rw [if_pos (by omega), if_pos h]
      · rw [if_neg (by omega), if_neg h]
    have e1 : ∑ i ∈ Finset.range (N + 1),
        (if i = k then hd.2 * q ^ ((i : ℕ) : ℤ) else coeffAt t (i : ℤ) * q ^ ((i : ℕ) : ℤ)) =
        hd.2 * q ^ ((k : ℕ) : ℤ) +
          ∑ i ∈ (Finset.range (N + 1)).erase k, coeffAt t (i : ℤ) * q ^ ((i : ℕ) : ℤ) := by
      rw [← Finset.add_sum_erase _ _ hk_mem, if_pos rfl]
      congr 1
      exact Finset.sum_congr rfl fun i hi => if_neg (Finset.ne_of_mem_erase hi)
    have e2 : ∑ i ∈ Finset.range (N + 1), coeffAt t (i : ℤ) * q ^ ((i : ℕ) : ℤ) =
        ∑ i ∈ (Finset.range (N + 1)).erase k, coeffAt t (i : ℤ) * q ^ ((i : ℕ) : ℤ) := by
      rw [← Finset.add_sum_erase _ _ hk_mem, coeffAt_eq_zero t _ hne, zero_mul, zero_add]
    rw [evalLP_cons, ih ht N hbt q, Finset.sum_congr rfl hsplit, e1, e2, hdk]

/-- The rational root theorem, in homogenized integer form: if a weighted
power sum vanishes, the base `a` divides the 0th weight and `b` divides
the top weight. -/
theorem rrt_aux (g : ℕ → ℤ) (N : ℕ) (a b : ℤ) (hcop : IsCoprime a b)
    (hsum : ∑ i ∈ Finset.range (N + 1), g i * a ^ i * b ^ (N - i) = 0) :
    a ∣ g 0 ∧ b ∣ g N := by
  constructor
  · have h0 : (0 : ℕ) ∈ Finset.range (N + 1) := Finset.mem_range.mpr (by omega)
    have e1 := Finset.add_sum_erase (Finset.range (N + 1))
      (fun i => g i * a ^ i * b ^ (N - i)) h0
    have hdvd : a ∣ ∑ i ∈ (Finset.range (N + 1)).erase 0, g i * a ^ i * b ^ (N - i) := by
      refine Finset.dvd_sum fun i hi => ?_
      exact ((dvd_pow_self a (Finset.ne_of_mem_erase hi)).mul_left (g i)).mul_right _
    have h2 : g 0 * b ^ N =
        -∑ i ∈ (Finset.range (N + 1)).erase 0, g i * a ^ i * b ^ (N - i) := by
      have h3 : g 0 * a ^ 0 * b ^ (N - 0) +
          ∑ i ∈ (Finset.range (N + 1)).erase 0, g i * a ^ i * b ^ (N - i) = 0 := by
        rw [e1]; exact hsum
      simp only [pow_zero, mul_one, Nat.sub_zero] at h3
      linarith
    have h4 : a ∣ g 0 * b ^ N := by
      rw [h2]
      exact dvd_neg.mpr hdvd
    exact hcop.pow_right.dvd_of_dvd_mul_right h4
  · have h0 : N ∈ Finset.range (N + 1) := Finset.mem_range.mpr (by omega)
    have e1 := Finset.add_sum_erase (Finset.range (N + 1))
      (fun i => g i * a ^ i * b ^ (N - i)) h0
    have hdvd : b ∣ ∑ i ∈ (Finset.range (N + 1)).erase N, g i * a ^ i * b ^ (N - i) := by
      refine Finset.dvd_sum fun i hi => ?_
      have hiN : i ≠ N := Finset.ne_of_mem_erase hi
      have hir : i < N + 1 := Finset.mem_range.mp (Finset.mem_of_mem_erase hi)
      exact (dvd_pow_self b (by omega : N - i ≠ 0)).mul_left _
    have h2 : g N * a ^ N =
        -∑ i ∈ (Finset.range (N + 1)).erase N, g i * a ^ i * b ^ (N - i) := by
      have h3 : g N * a ^ N * b ^ (N - N) +
          ∑ i ∈ (Finset.range (N + 1)).erase N, g i * a ^ i * b ^ (N - i) = 0 := by
        rw [e1]; exact hsum
      simp only [Nat.sub_self, pow_zero, mul_one] at h3
      linarith
    have h4 : b ∣ g N * a ^ N := by
      rw [h2]
      exact dvd_neg.mpr hdvd
    exact hcop.symm.pow_right.dvd_of_dvd_mul_right h4

/-- The rational root theorem for a canonical Laurent polynomial with
nonnegative exponents: a nonzero rational root's numerator divides the
denominator-cleared lowest coefficient, and its denominator divides the
denominator-cleared leading coefficient. -/
theorem rrt_lp (e0 : ℤ) (c0 : ℚ) (t : LP)
    (hc : Canon ((e0, c0) :: t)) (q : ℚ) (hq : q ≠ 0)
    (hroot : evalLP ((e0, c0) :: t) q = 0) :
    q.num ∣ (c0 * (lcmDen ((e0, c0) :: t) : ℚ)).num ∧
    (q.den : ℤ) ∣
      (((((e0, c0) :: t).getLast?.map (·.2)).getD c0) * (lcmDen ((e0, c0) :: t) : ℚ)).num := by
  set p : LP := (e0, c0) :: t with hp
  set p' : LP := p.map fun m => (m.1 - e0, m.2) with hp'
  have hpne : p ≠ [] := by simp [hp]
  have hc' : Canon p' := shift_canon p e0 hc
  have hmin : minExp p = e0 := rfl
  have hlow : ∀ m ∈ p', 0 ≤ m.1 := by
    intro m hm
    rcases List.mem_map.mp hm with ⟨m', hm', rfl⟩
    have hle := minExp_le p hc m' hm'
    rw [hmin] at hle
    simp only
    omega
  have hroot' : evalLP p' q = 0 := by
    rw [hp', evalLP_shift p e0 q hq, hroot, mul_zero]
  have hp'ne : p' ≠ [] := by simp [hp', hp]
  obtain ⟨lst, hlst⟩ : ∃ lst, p'.getLast hp'ne = lst := ⟨_, rfl⟩
  have hlstmem : lst ∈ p' := hlst ▸ List.getLast_mem hp'ne
  have hlst0 : 0 ≤ lst.1 := hlow lst hlstmem
  set N : ℕ := lst.1.toNat with hNdef
  have hNlst : lst.1 = (N : ℤ) := (Int.toNat_of_nonneg hlst0).symm
  have hup : ∀ m ∈ p', 0 ≤ m.1 ∧ m.1 ≤ (N : ℤ) := by
    intro m hm
    refine ⟨hlow m hm, ?_⟩
    have hle := le_getLast p' hc' hp'ne m hm
    rw [hlst] at hle
    omega
  have hsum := evalLP_eq_sum p' hc' N hup q
  rw [hroot'] at hsum
  set D : ℕ := lcmDen p with hD
  have hD' : lcmDen p' = D := by rw [hp']; exact lcmDen_map_shift p e0
  have hdenQ : ((q.den : ℚ)) ≠ 0 := Nat.cast_ne_zero.mpr q.den_nz
  set g : ℕ → ℤ := fun i => (coeffAt p' (i : ℤ) * (D : ℚ)).num with hg
  have hgQ : ∀ i : ℕ, ((g i : ℤ) : ℚ) = coeffAt p' (i : ℤ) * (D : ℚ) := by
    intro i
    apply scaled_int
    rw [← hD']
    exact coeffAt_den_dvd p' _
  have key : ∑ i ∈ Finset.range (N + 1), g i * q.num ^ i * (q.den : ℤ) ^ (N - i) = 0 := by
    have hcast : ((∑ i ∈ Finset.range (N + 1),
          g i * q.num ^ i * (q.den : ℤ) ^ (N - i) : ℤ) : ℚ) =
        (D : ℚ) * (q.den : ℚ) ^ N *
          ∑ i ∈ Finset.range (N + 1), coeffAt p' (i : ℤ) * q ^ ((i : ℕ) : ℤ) := by
      push_cast
      rw [Finset.mul_sum]
      refine Finset.sum_congr rfl fun i hi => ?_
      have hiN : i ≤ N := by
        have := Finset.mem_range.mp hi
        omega
      rw [hgQ i, zpow_natCast]
      rw [show q ^ i = (q.num : ℚ) ^ i / (q.den : ℚ) ^ i by
        rw [← div_pow, Rat.num_div_den]]
      have hpow : (q.den : ℚ) ^ N = (q.den : ℚ) ^ i * (q.den : ℚ) ^ (N - i) := by
        rw [← pow_add]
        congr 1
        omega
      rw [hpow]
      field_simp
      ring
    rw [← hsum, mul_zero] at hcast
    exact_mod_cast hcast
  have hcop : IsCoprime q.num (q.den : ℤ) := by
    rw [Int.isCoprime_iff_gcd_eq_one]
    simpa [Int.gcd] using q.reduced
  obtain ⟨hnum, hden⟩ := rrt_aux g N q.num (q.den : ℤ) hcop key
  have hp'head : p' = (0, c0) :: t.map (fun m => (m.1 - e0, m.2)) := by
    rw [hp', hp]
    simp
  constructor
  · have h0 : coeffAt p' ((0 : ℕ) : ℤ) = c0 := by
      rw [hp'head, coeffAt_cons]
      norm_num
    have hg0 : (c0 * (D : ℚ)).num = g 0 := by
      simp only [hg]
      rw [h0]
    rw [hg0]
    exact hnum
  · have hlastc : coeffAt p' ((N : ℕ) : ℤ) = lst.2 := by
      rw [← hNlst]
      exact coeffAt_mem p' hc' lst hlstmem
    have h2 : lst.2 = (p.getLast hpne).2 := by
      rw [← hlst]
      exact getLast_map_snd (fun m => (m.1 - e0, m.2)) (fun m => rfl) p hpne hp'ne
    have h3 : ((p.getLast?.map (·.2)).getD c0) = (p.getLast hpne).2 := by
      rw [List.getLast?_eq_getLast p hpne]
      rfl
    have hgN : (((p.getLast?.map (·.2)).getD c0) * (D : ℚ)).num = g N := by
      simp only [hg]
      rw [hlastc, h2, h3]
    rw [hgN]
    exact hden

theorem evalLP_shift_zero : ∀ (d : LP) (q : ℚ),
    evalLP (d.map fun m => (m.1 - 0, m.2)) q = evalLP d q := by
  intro d q
  induction d with
  | nil => rfl
  | cons hd t ih =>
    simp only [List.map_cons, evalLP_cons, ih]
    norm_num

theorem mem_divisorsList (m n : ℕ) (hn : n ≠ 0) (h : m ∣ n) : m ∈ divisorsList n := by
  unfold divisorsList
  rw [List.mem_filter]
  have h1 : m ≠ 0 := by
    rintro rfl
    exact hn (zero_dvd_iff.mp h)
  have h2 : m ≤ n := Nat.le_of_dvd (Nat.pos_of_ne_zero hn) h
  constructor
  · rw [List.mem_map]
    exact ⟨m - 1, List.mem_range.mpr (by omega), by omega⟩
  · exact decide_eq_true h

theorem ratRoots_sound (p : LP) (q : ℚ) (hq : q ∈ ratRoots p) : evalLP p q = 0 := by
  unfold ratRoots at hq
  cases p with
  | nil => cases hq
  | cons hd t =>
    obtain ⟨e0, c0⟩ := hd
    rw [List.Perm.mem_iff (List.perm_insertionSort _ _), List.mem_dedup,
      List.mem_filter] at hq
    exact of_decide_eq_true hq.2

theorem ratRoots_nodup (p : LP) : (ratRoots p).Nodup := by
  unfold ratRoots
  cases p with
  | nil => exact List.nodup_nil
  | cons hd t =>
    obtain ⟨e0, c0⟩ := hd
    exact (List.perm_insertionSort _ _).symm.nodup (List.nodup_dedup _)

theorem ratRoots_complete (p : LP) (hc : Canon p) (hexp : ∀ m ∈ p, 0 ≤ m.1)
    (hne : p ≠ []) (q : ℚ) (hroot : evalLP p q = 0) : q ∈ ratRoots p := by
  obtain ⟨b, t, rfl⟩ := List.exists_cons_of_ne_nil hne
  obtain ⟨e0, c0⟩ := b
  unfold ratRoots
  rw [List.Perm.mem_iff (List.perm_insertionSort _ _), List.mem_dedup, List.mem_filter]
  refine ⟨?_, decide_eq_true hroot⟩
  by_cases hq : q = 0
  · subst hq
    exact List.mem_cons_self _ _
  · apply List.mem_cons_of_mem
    rw [List.mem_flatMap]
    obtain ⟨hnum, hden⟩ := rrt_lp e0 c0 t hc q hq hroot
    have hDne : (lcmDen ((e0, c0) :: t) : ℚ) ≠ 0 :=
      Nat.cast_ne_zero.mpr (lcmDen_ne_zero _)
    have hc0 : c0 ≠ 0 := hc.2 (e0, c0) (List.mem_cons_self _ _)
    have ha0 : (c0 * (lcmDen ((e0, c0) :: t) : ℚ)).num ≠ 0 := by
      rw [Rat.num_ne_zero]
      exact mul_ne_zero hc0 hDne
    have hlastmem : (((e0, c0) :: t).getLast (by simp)) ∈ (e0, c0) :: t :=
      List.getLast_mem _
    have hgl : ((((e0, c0) :: t).getLast?.map (·.2)).getD c0) =
        (((e0, c0) :: t).getLast (by simp)).2 := by
      rw [List.getLast?_eq_getLast _ (by simp)]
      rfl
    have han : (((((e0, c0) :: t).getLast?.map (·.2)).getD c0) *
        (lcmDen ((e0, c0) :: t) : ℚ)).num ≠ 0 := by
      rw [Rat.num_ne_zero, hgl]
      exact mul_ne_zero (hc.2 _ hlastmem) hDne
    refine ⟨q.num.natAbs,
      mem_divisorsList _ _ (Int.natAbs_ne_zero.mpr ha0) (Int.natAbs_dvd_natAbs.mpr hnum),
      ?_⟩
    rw [List.mem_flatMap]
    refine ⟨q.den, mem_divisorsList _ _ (Int.natAbs_ne_zero.mpr han) ?_, ?_⟩
    · have hd2 := Int.natAbs_dvd_natAbs.mpr hden
      simpa using hd2
    · rcases Int.natAbs_eq q.num with h | h
      · have heq : ((q.num.natAbs : ℚ)) / ((q.den : ℚ)) = q := by
          rw [show ((q.num.natAbs : ℕ) : ℚ) = (((q.num.natAbs : ℤ)) : ℚ) from
            (Int.cast_natCast _).symm, ← h]
          exact Rat.num_div_den q
        exact List.mem_cons.mpr (Or.inl heq.symm)
      · have heq : -(((q.num.natAbs : ℚ)) / ((q.den : ℚ))) = q := by
          have h3 : ((q.num.natAbs : ℤ)) = -q.num := by omega
          have h2 : ((q.num.natAbs : ℚ)) = -((q.num : ℤ) : ℚ) := by
            calc ((q.num.natAbs : ℚ)) = (((q.num.natAbs : ℤ)) : ℚ) :=
                (Int.cast_natCast _).symm
              _ = ((-q.num : ℤ) : ℚ) := by rw [h3]
              _ = -((q.num : ℤ) : ℚ) := Int.cast_neg _
          rw [h2, neg_div, neg_neg]
          exact Rat.num_div_den q
        exact List.mem_cons.mpr (Or.inr (List.mem_cons.mpr (Or.inl heq.symm)))

theorem solveLaurent_nodup (l r : LP) : (solveLaurent l r).Nodup := by
  unfold solveLaurent
  split_ifs
  · exact List.Nodup.filter _ (ratRoots_nodup _)
  · exact ratRoots_nodup _

theorem solveLaurent_sound (l r : LP) (hcl : Canon l) (hcr : Canon r)
    (q : ℚ) (hq : q ∈ solveLaurent l r) : isSolution l r q := by
  unfold solveLaurent at hq
  set d := subLP l r with hdd
  set sh := min (minExp d) 0 with hsh
  set p : LP := d.map (fun m => (m.1 - sh, m.2)) with hp
  have hmain : evalLP p q = 0 ∧ ((minExp l < 0 ∨ minExp r < 0) → q ≠ 0) := by
    split_ifs at hq with hdenom
    · rw [List.mem_filter] at hq
      exact ⟨ratRoots_sound p q hq.1, fun _ => of_decide_eq_true hq.2⟩
    · exact ⟨ratRoots_sound p q hq, fun h => absurd h hdenom⟩
  obtain ⟨hroot, hnz⟩ := hmain
  have hsub : evalLP d q = 0 := by
    by_cases hq0 : q = 0
    · have hdenom : ¬(minExp l < 0 ∨ minExp r < 0) := fun h => (hnz h) hq0
      push_neg at hdenom
      have hdexp : ∀ m ∈ d, 0 ≤ m.1 := by
        intro m hm
        rcases subLP_exp l r m hm with ⟨m', hm', he⟩ | ⟨m', hm', he⟩
        · have := minExp_le l hcl m' hm'
          omega
        · have := minExp_le r hcr m' hm'
          omega
      have hsh0 : sh = 0 := by
        rw [hsh]
        exact min_eq_right (minExp_nonneg d hdexp)
      rw [hp, hsh0, evalLP_shift_zero] at hroot
      exact hroot
    · have hshift := evalLP_shift d sh q hq0
      rw [← hp] at hshift
      rw [hshift] at hroot
      rcases mul_eq_zero.mp hroot with h | h
      · exact absurd h (zpow_ne_zero _ hq0)
      · exact h
  refine ⟨hnz, ?_⟩
  have hs := evalLP_subLP l r q
  rw [← hdd, hsub] at hs
  linarith

theorem solveLaurent_complete (l r : LP) (hcl : Canon l) (hcr : Canon r)
    (hd : subLP l r ≠ []) (q : ℚ) (hsol : isSolution l r q) : q ∈ solveLaurent l r := by
  obtain ⟨hdef, heq⟩ := hsol
  unfold solveLaurent
  set d := subLP l r with hdd
  set sh := min (minExp d) 0 with hsh
  set p : LP := d.map (fun m => (m.1 - sh, m.2)) with hp
  have hcd : Canon d := subLP_canon l r hcr
  have hcp : Canon p := shift_canon d sh hcd
  have hsh' : sh ≤ minExp d := by
    rw [hsh]
    exact min_le_left _ _
  have hpexp : ∀ m ∈ p, 0 ≤ m.1 := by
    intro m hm
    rcases List.mem_map.mp hm with ⟨m', hm', rfl⟩
    have := minExp_le d hcd m' hm'
    simp only
    omega
  have hpne : p ≠ [] := by
    rw [hp]
    simpa using hd
  have hdroot : evalLP d q = 0 := by
    rw [hdd, evalLP_subLP, heq, sub_self]
  have hproot : evalLP p q = 0 := by
    by_cases hq0 : q = 0
    · have hdenom : ¬(minExp l < 0 ∨ minExp r < 0) := fun h => (hdef h) hq0
      push_neg at hdenom
      have hdexp : ∀ m ∈ d, 0 ≤ m.1 := by
        intro m hm
        rcases subLP_exp l r m hm with ⟨m', hm', he⟩ | ⟨m', hm', he⟩
        · have := minExp_le l hcl m' hm'
          omega
        · have := minExp_le r hcr m' hm'
          omega
      have hsh0 : sh = 0 := by
        rw [hsh]
        exact min_eq_right (minExp_nonneg d hdexp)
      rw [hp, hsh0, evalLP_shift_zero]
      exact hdroot
    · rw [hp, evalLP_shift d sh q hq0, hdroot, mul_zero]
  have hmem : q ∈ ratRoots p := ratRoots_complete p hcp hpexp hpne q hproot
  split_ifs with hdenom
  · rw [List.mem_filter]
    exact ⟨hmem, decide_eq_true (hdef hdenom)⟩
  · exact hmem

theorem evalLP_const (l : LP) (h : ¬hasVar l) : ∀ q q' : ℚ, evalLP l q = evalLP l q' := by
  induction l with
  | nil => intro q q'; rfl
  | cons hd t ih =>
    intro q q'
    have h0 : hd.1 = 0 := by
      by_contra hne
      exact h ⟨hd, List.mem_cons_self _ _, hne⟩
    have ht : ¬hasVar t := fun hv => by
      obtain ⟨m, hm, hne⟩ := hv
      exact h ⟨m, List.mem_cons_of_mem _ hm, hne⟩
    rw [evalLP_cons, evalLP_cons, h0, ih ht q q']
    simp

theorem minExp_nonneg_of_const (l : LP) (h : ¬hasVar l) : 0 ≤ minExp l := by
  cases l with
  | nil => exact le_refl 0
  | cons hd t =>
    have h0 : hd.1 = 0 := by
      by_contra hne
      exact h ⟨hd, List.mem_cons_self _ _, hne⟩
    simp [minExp, h0]

theorem nodup_all_eq_singleton {α : Type} (l : List α) (a : α) (hnd : l.Nodup)
    (hmem : a ∈ l) (hall : ∀ x ∈ l, x = a) : l = [a] := by
  cases l with
  | nil => cases hmem
  | cons b t =>
    have hb : b = a := hall b (List.mem_cons_self _ _)
    subst hb
    cases t with
    | nil => rfl
    | cons c t2 =>
      have hc : c = b := hall c (List.mem_cons_of_mem _ (List.mem_cons_self _ _))
      subst hc
      exact absurd (List.mem_cons_self c t2) (List.nodup_cons.mp hnd).1

/-- C1 amended: a raw string that passes the four structural prechecks
*and whose normalized form contains at least one arithmetic operator
character* (the condition the original claim omits, and which rejects
runs of the shape `x=<integer literal>` such as `x=200`), and whose
normalized form parses as `lhs = rhs` with a unique rational solution
for the variable, that solution being the integer `n` (the sides thus
being neither a trivial numeric truth nor an identity), validates to
exactly that integer solution. -/
theorem claim1_amended_unique_solution (raw : List Char) (v : Char) (l r : LP) (n : ℤ)
    (h1 : ¬raw.length < MIN_EQ_LEN) (h2 : raw.count '=' = 1) (h3 : v ∈ raw)
    (h4 : opponentSymbol v ∉ raw) (h5 : '=' ∈ preprocess raw)
    (h6 : '+' ∈ preprocess raw ∨ '-' ∈ preprocess raw ∨ '*' ∈ preprocess raw ∨
          '/' ∈ preprocess raw)
    (hdl : parseSide v (lhsStr (preprocess raw)) = some l)
    (hdr : parseSide v (rhsStr (preprocess raw)) = some r)
    (hne : l ≠ r)
    (hsol : isSolution l r (n : ℚ))
    (huniq : ∀ q : ℚ, isSolution l r q → q = (n : ℚ)) :
    is_valid_equation raw v = some n := by
  have hcl : Canon l := parseSide_canon v _ l hdl
  have hcr : Canon r := parseSide_canon v _ r hdr
  have hd : subLP l r ≠ [] := by
    intro h0
    have hall : ∀ q : ℚ, q ≠ 0 → isSolution l r q := by
      intro q hq0
      refine ⟨fun _ => hq0, ?_⟩
      have hs := evalLP_subLP l r q
      rw [h0] at hs
      have : (0 : ℚ) = evalLP l q - evalLP r q := hs
      linarith
    have hq1 : ((n.natAbs + 1 : ℕ) : ℚ) ≠ 0 := Nat.cast_ne_zero.mpr (by omega)
    have hq2 : ((n.natAbs + 2 : ℕ) : ℚ) ≠ 0 := Nat.cast_ne_zero.mpr (by omega)
    have e1 := huniq _ (hall _ hq1)
    have e2 := huniq _ (hall _ hq2)
    rw [← e2] at e1
    have : (n.natAbs + 1 : ℕ) = (n.natAbs + 2 : ℕ) := by exact_mod_cast e1
    omega
  have hv : hasVar l ∨ hasVar r := by
    by_contra hnv
    push_neg at hnv
    obtain ⟨hvl, hvr⟩ := hnv
    have hconst : ∀ q : ℚ, evalLP l q = evalLP r q := by
      intro q
      rw [evalLP_const l hvl q (n : ℚ), evalLP_const r hvr q (n : ℚ)]
      exact hsol.2
    have hminl := minExp_nonneg_of_const l hvl
    have hminr := minExp_nonneg_of_const r hvr
    have hall : ∀ q : ℚ, isSolution l r q := fun q =>
      ⟨fun h => absurd h (not_or.mpr ⟨not_lt.mpr hminl, not_lt.mpr hminr⟩), hconst q⟩
    have e1 := huniq _ (hall ((n : ℚ) + 1))
    have e2 := huniq _ (hall ((n : ℚ)))
    rw [← e2] at e1
    linarith
  simp only [is_valid_equation]
  rw [if_neg h1, if_neg (by simp [h2]), if_neg (by simp [h3]), if_neg h4,
    if_neg (by simp [h5]), if_neg (by simp [h6]), hdl, hdr]
  dsimp only
  rw [if_neg (by simp [hv]), if_neg (fun h => hne h.1), if_neg (fun h => hne h.1)]
  have hsols : solveLaurent l r = [(n : ℚ)] := by
    refine nodup_all_eq_singleton _ _ (solveLaurent_nodup l r) ?_ ?_
    · exact solveLaurent_complete l r hcl hcr hd _ hsol
    · intro x hx
      exact huniq x (solveLaurent_sound l r hcl hcr x hx)
  rw [hsols]
  have hacc : acceptCandidate ((n : ℚ)) = some n := by
    unfold acceptCandidate
    rw [if_pos (Rat.den_intCast n), Rat.num_intCast]
  rw [List.findSome?_cons, hacc]

/-- Witness for the amended C1 at `x+1=5`, whose unique solution is 4. -/
theorem claim1_amended_unique_solution_witness :
    is_valid_equation "x+1=5".toList 'x' = some 4 := by
  refine claim1_amended_unique_solution "x+1=5".toList 'x' [(0, 1), (1, 1)] [(0, 5)] 4
    (by decide) (by decide) (by decide) (by decide) (by decide) (by decide)
    (by decide) (by decide) (by decide) (by decide) ?_
  intro q hq
  have h2 := hq.2
  simp only [evalLP, List.foldr, zpow_one, zpow_zero, one_mul, mul_one, add_zero] at h2
  have : (4 : ℚ) = ((4 : ℤ) : ℚ) := by norm_num
  rw [← this]
  linarith

theorem take_range' : ∀ (i n s : ℕ), i ≤ n → (List.range' s n).take i = List.range' s i := by
  intro i
  induction i with
  | zero => intro n s _; rw [List.take_zero]; rfl
  | succ i ih =>
    intro n s h
    cases n with
    | zero => omega
    | succ n =>
      rw [show List.range' s (n + 1) = s :: List.range' (s + 1) n from rfl,
        List.take_succ_cons, ih n (s + 1) (by omega)]
      rfl

theorem take_map_range' {α : Type} (f : ℕ → α) (L n : ℕ) (h : L ≤ n) :
    ((List.range' 0 n).map f).take L = (List.range' 0 L).map f := by
  rw [← List.map_take, take_range' L n 0 h]

theorem take_succ_map_range' {α : Type} (f : ℕ → α) (L n : ℕ) (h : L < n) :
    ((List.range' 0 n).map f).take (L + 1) = ((List.range' 0 n).map f).take L ++ [f L] := by
  rw [take_map_range' f (L + 1) n (by omega), take_map_range' f L n (by omega)]
  rw [show List.range' 0 (L + 1) = List.range' 0 L ++ [0 + 1 * L] from List.range'_concat 0 L]
  rw [List.map_append]
  simp

/-- Characterization of `takeWhile` on a mapped index range: it is the
image of an initial segment, all of whose points satisfy the predicate,
the next point (if any) failing it. -/
theorem takeWhile_map_range' {α : Type} (f : ℕ → α) (p : α → Bool) :
    ∀ m s : ℕ, ∃ k, k ≤ m ∧
      ((List.range' s m).map f).takeWhile p = (List.range' s k).map f ∧
      (∀ i, i < k → p (f (s + i)) = true) ∧
      (k < m → ¬p (f (s + k)) = true) := by
  intro m
  induction m with
  | zero =>
    intro s
    exact ⟨0, le_refl 0, rfl, fun i hi => absurd hi (Nat.not_lt_zero i),
      fun h => absurd h (lt_irrefl 0)⟩
  | succ m ih =>
    intro s
    cases hp : p (f s) with
    | true =>
      obtain ⟨k, hk1, hk2, hk3, hk4⟩ := ih (s + 1)
      refine ⟨k + 1, by omega, ?_, ?_, ?_⟩
      · show List.takeWhile p (f s :: (List.range' (s + 1) m).map f) =
          (List.range' s (k + 1)).map f
        rw [List.takeWhile_cons_of_pos hp, hk2]
        rfl
      · intro i hi
        cases i with
        | zero => simpa using hp
        | succ i =>
          have h1 := hk3 i (by omega)
          have h2 : s + (i + 1) = s + 1 + i := by omega
          rw [h2]
          exact h1
      · intro h
        have h1 := hk4 (by omega)
        have h2 : s + (k + 1) = s + 1 + k := by omega
        rw [h2]
        exact h1
    | false =>
      refine ⟨0, by omega, ?_, fun i hi => absurd hi (Nat.not_lt_zero i), fun _ => ?_⟩
      · show List.takeWhile p (f s :: (List.range' (s + 1) m).map f) =
          (List.range' s 0).map f
        rw [List.takeWhile_cons_of_neg (by simp [hp])]
        rfl
      · simpa using hp

theorem keepCell_eq_some {board : List (List Char)} {size : ℕ} {p : ℤ × ℤ} {ch : Char} :
    keepCell board size p = some ch ↔ cellAt board size p = some ch ∧ ch ≠ EMPTY_CELL := by
  unfold keepCell
  cases h : cellAt board size p with
  | none => simp
  | some ch' =>
    dsimp only
    split_ifs with h1
    · subst h1
      constructor
      · intro h2; simp at h2
      · rintro ⟨h2, h3⟩
        injection h2 with h4
        exact absurd h4.symm h3
    · constructor
      · intro h2
        injection h2 with h4
        exact ⟨by rw [h4], h4 ▸ h1⟩
      · rintro ⟨h2, -⟩
        exact h2

theorem cellAt_some_inBounds {board : List (List Char)} {size : ℕ} {p : ℤ × ℤ} {ch : Char}
    (h : cellAt board size p = some ch) : inBounds size p := by
  unfold cellAt at h
  split_ifs at h with hb
  · exact hb

/-- The structural facts about a Run: it is the image of an initial index
segment bounded by the board size, its cells all exist and are non-empty,
and the next cell (when the loop would still run) does not. -/
theorem runPositions_facts (board : List (List Char)) (size : ℕ) (r0 c0 : ℕ) (d : ℤ × ℤ) :
    (runPositions board size r0 c0 d).length ≤ size ∧
    runPositions board size r0 c0 d =
      (List.range' 0 (runPositions board size r0 c0 d).length).map (posAt r0 c0 d) ∧
    (∀ i, i < (runPositions board size r0 c0 d).length →
      (keepCell board size (posAt r0 c0 d i)).isSome = true) ∧
    ((runPositions board size r0 c0 d).length < size →
      ¬(keepCell board size (posAt r0 c0 d ((runPositions board size r0 c0 d).length))).isSome
        = true) := by
  obtain ⟨k, hk1, hk2, hk3, hk4⟩ := takeWhile_map_range' (posAt r0 c0 d)
    (fun p => (keepCell board size p).isSome) size 0
  have he : runPositions board size r0 c0 d = (List.range' 0 k).map (posAt r0 c0 d) := by
    unfold runPositions rayPos
    rw [List.range_eq_range']
    exact hk2
  have hlen : (runPositions board size r0 c0 d).length = k := by
    rw [he, List.length_map, List.length_range']
  refine ⟨hlen ▸ hk1, by rw [hlen]; exact he, ?_, ?_⟩
  · intro i hi
    rw [hlen] at hi
    simpa using hk3 i hi
  · intro h
    rw [hlen] at h ⊢
    simpa using hk4 h

/-- The code-side walk `scanStep`, from step `i` with the matching
accumulated run, equals the spec-side enumeration: try every longer
prefix of the Run, shortest first, then the boundary validation at a
board-edge or empty-cell termination. -/
theorem scanStep_eq_aux (board : List (List Char)) (size : ℕ) (sym : Char) (r0 c0 : ℕ)
    (d : ℤ × ℤ) (n : ℕ) (pos : List (ℤ × ℤ)) (chars : List Char)
    (hn : n ≤ size)
    (hpos : pos = (List.range' 0 n).map (posAt r0 c0 d))
    (hchars : chars = pos.map fun p => (cellAt board size p).getD EMPTY_CELL)
    (hkeep : ∀ i, i < n → (keepCell board size (posAt r0 c0 d i)).isSome = true)
    (hstop : n < size → ¬(keepCell board size (posAt r0 c0 d n)).isSome = true) :
    ∀ k i, i ≤ n → n - i = k →
      scanStep board size sym r0 c0 d (size - i) i (chars.take i) (pos.take i) =
        ((List.range' (i + 1) (n - i)).findSome?
            (fun L => tryWin (chars.take L) (pos.take L) sym)).or
          (if n < size ∧ (¬inBounds size (posAt r0 c0 d n) ∨
              cellAt board size (posAt r0 c0 d n) = some EMPTY_CELL)
           then tryWin chars pos sym
           else none) := by
  have hposlen : pos.length = n := by rw [hpos, List.length_map, List.length_range']
  have hcharslen : chars.length = n := by rw [hchars, List.length_map, hposlen]
  have hpostake : ∀ L, L < n → pos.take (L + 1) = pos.take L ++ [posAt r0 c0 d L] := by
    intro L hL
    rw [hpos]
    exact take_succ_map_range' _ L n hL
  have hcell : ∀ i, i < n → ∃ ch, cellAt board size (posAt r0 c0 d i) = some ch ∧
      ch ≠ EMPTY_CELL ∧ chars.take (i + 1) = chars.take i ++ [ch] := by
    intro i hi
    obtain ⟨ch, hch⟩ := Option.isSome_iff_exists.mp (hkeep i hi)
    obtain ⟨hc1, hc2⟩ := keepCell_eq_some.mp hch
    refine ⟨ch, hc1, hc2, ?_⟩
    rw [hchars, ← List.map_take, ← List.map_take, hpostake i hi, List.map_append]
    simp [hc1]
  have htaken_chars : chars.take n = chars := by rw [← hcharslen]; exact List.take_length chars
  have htaken_pos : pos.take n = pos := by rw [← hposlen]; exact List.take_length pos
  intro k
  induction k with
  | zero =>
    intro i hle heq
    have hin : n = i := by omega
    subst hin
    rw [Nat.sub_self, show List.range' (n + 1) 0 = [] from rfl, List.findSome?_nil,
      Option.none_or]
    by_cases hns : n < size
    · have hkc : keepCell board size (posAt r0 c0 d n) = none := by
        cases hkc2 : keepCell board size (posAt r0 c0 d n) with
        | none => rfl
        | some ch => exact absurd (by rw [hkc2]; rfl) (hstop hns)
      cases hca : cellAt board size (posAt r0 c0 d n) with
      | none =>
        by_cases hIB : inBounds size (posAt r0 c0 d n)
        · rw [show size - n = (size - n - 1) + 1 from by omega]
          simp only [scanStep]
          rw [if_pos hIB, hca]
          have hcond : ¬(n < size ∧ (¬inBounds size (posAt r0 c0 d n) ∨
              (none : Option Char) = some EMPTY_CELL)) := by
            rintro ⟨-, h | h⟩
            · exact h hIB
            · simp at h
          rw [if_neg hcond]
        · rw [show size - n = (size - n - 1) + 1 from by omega]
          simp only [scanStep]
          rw [if_neg hIB, htaken_chars, htaken_pos, if_pos ⟨hns, Or.inl hIB⟩]
      | some ch =>
        have hch : ch = EMPTY_CELL := by
          unfold keepCell at hkc
          rw [hca] at hkc
          dsimp only at hkc
          split_ifs at hkc with h1
          exact h1
        subst hch
        have hIB : inBounds size (posAt r0 c0 d n) := cellAt_some_inBounds hca
        rw [show size - n = (size - n - 1) + 1 from by omega]
        simp only [scanStep]
        rw [if_pos hIB, hca]
        dsimp only
        rw [if_pos rfl, htaken_chars, htaken_pos, if_pos ⟨hns, Or.inr trivial⟩]
    · rw [show size - n = 0 from by omega]
      simp only [scanStep]
      rw [if_neg (fun h => absurd h.1 hns)]
  | succ k ih =>
    intro i hle heq
    have hin : i < n := by omega
    obtain ⟨ch, hca, hchne, hctake⟩ := hcell i hin
    have hIB : inBounds size (posAt r0 c0 d i) := cellAt_some_inBounds hca
    rw [show size - i = (size - (i + 1)) + 1 from by omega]
    simp only [scanStep]
    rw [if_pos hIB, hca]
    dsimp only
    rw [if_neg hchne, ← hctake, ← hpostake i hin]
    rw [show n - i = (n - (i + 1)) + 1 from by omega, List.range'_succ, List.findSome?_cons]
    cases htry : tryWin (chars.take (i + 1)) (pos.take (i + 1)) sym with
    | some w => rfl
    | none =>
      dsimp only
      exact ih (i + 1) (by omega) (by omega)

/-- A run shorter than `MIN_EQ_LEN` is never validated. -/
theorem tryWin_short (raw : List Char) (coords : List (ℤ × ℤ)) (sym : Char)
    (h : raw.length < MIN_EQ_LEN) : tryWin raw coords sym = none := by
  unfold tryWin
  rw [if_neg (by omega)]

/-- Dropping an all-`none` low segment from a `range'` enumeration. -/
theorem findSome_range_shift {α : Type} (f : ℕ → Option α) :
    ∀ m s n, m ≤ n → (∀ L, L < s + m → f L = none) →
      (List.range' s n).findSome? f = (List.range' (s + m) (n - m)).findSome? f := by
  intro m
  induction m with
  | zero =>
    intro s n _ _
    rw [Nat.add_zero, Nat.sub_zero]
  | succ m ih =>
    intro s n hm hlow
    cases n with
    | zero => omega
    | succ n =>
      rw [List.range'_succ, List.findSome?_cons, hlow s (by omega)]
      dsimp only
      rw [show s + (m + 1) = (s + 1) + m from by omega,
        show n + 1 - (m + 1) = n - m from by omega]
      exact ih (s + 1) n (by omega) (fun L hL => hlow L (by omega))

/-- The boundary validation written out equals the `validatingBoundary` form. -/
theorem boundaryIf_eq (board : List (List Char)) (size : ℕ) (sym : Char) (r0 c0 : ℕ)
    (d : ℤ × ℤ) :
    (if (runPositions board size r0 c0 d).length < size ∧
        (¬inBounds size (posAt r0 c0 d (runPositions board size r0 c0 d).length) ∨
         cellAt board size (posAt r0 c0 d (runPositions board size r0 c0 d).length) =
           some EMPTY_CELL)
     then tryWin (runChars board size r0 c0 d) (runPositions board size r0 c0 d) sym
     else none) =
    (if validatingBoundary board size r0 c0 d
     then tryWin (runChars board size r0 c0 d) (runPositions board size r0 c0 d) sym
     else none) := by
  by_cases hv : validatingBoundary board size r0 c0 d
  · have hv2 := hv
    simp only [validatingBoundary] at hv2
    rw [if_pos hv2, if_pos hv]
  · have hv2 := hv
    simp only [validatingBoundary] at hv2
    rw [if_neg hv2, if_neg hv]

/-- One full walk of `check_win_board` from an origin and direction equals
the per-ray candidate enumeration prescribed by the spec. -/
theorem scanStep_eq_rayCandidates (board : List (List Char)) (size : ℕ) (sym : Char)
    (r0 c0 : ℕ) (d : ℤ × ℤ) :
    scanStep board size sym r0 c0 d size 0 [] [] = rayCandidates board size sym r0 c0 d := by
  have hM : MIN_EQ_LEN = 5 := rfl
  obtain ⟨hlen, hposeq, hkeep, hstop⟩ := runPositions_facts board size r0 c0 d
  have hchars : runChars board size r0 c0 d =
      (runPositions board size r0 c0 d).map
        (fun p => (cellAt board size p).getD EMPTY_CELL) := rfl
  have hcharslen : (runChars board size r0 c0 d).length =
      (runPositions board size r0 c0 d).length := by
    rw [hchars, List.length_map]
  have main := scanStep_eq_aux board size sym r0 c0 d
    (runPositions board size r0 c0 d).length
    (runPositions board size r0 c0 d) (runChars board size r0 c0 d)
    hlen hposeq hchars hkeep hstop
    (runPositions board size r0 c0 d).length 0 (by omega) (by omega)
  simp only [Nat.sub_zero, List.take_zero] at main
  rw [main]
  have hshort : ∀ L, L < MIN_EQ_LEN →
      tryWin ((runChars board size r0 c0 d).take L)
        ((runPositions board size r0 c0 d).take L) sym = none := by
    intro L hL
    refine tryWin_short _ _ _ ?_
    rw [List.length_take]
    omega
  by_cases hn4 : 4 ≤ (runPositions board size r0 c0 d).length
  · rw [findSome_range_shift _ 4 1 (runPositions board size r0 c0 d).length hn4
      (fun L hL => hshort L (by omega))]
    rw [show (1 + 4 : ℕ) = MIN_EQ_LEN from rfl,
      show (runPositions board size r0 c0 d).length - 4 =
        (runPositions board size r0 c0 d).length + 1 - MIN_EQ_LEN from by omega]
    simp only [rayCandidates]
    cases hfs : (List.range' MIN_EQ_LEN
        ((runPositions board size r0 c0 d).length + 1 - MIN_EQ_LEN)).findSome?
        (fun L => tryWin ((runChars board size r0 c0 d).take L)
          ((runPositions board size r0 c0 d).take L) sym) with
    | some w => rfl
    | none =>
      rw [Option.none_or]
      exact boundaryIf_eq board size sym r0 c0 d
  · rw [findSome_range_shift _ (runPositions board size r0 c0 d).length 1
      (runPositions board size r0 c0 d).length (le_refl _)
      (fun L hL => hshort L (by omega))]
    rw [Nat.sub_self,
      show List.range' (1 + (runPositions board size r0 c0 d).length) 0 = [] from rfl,
      List.findSome?_nil, Option.none_or]
    simp only [rayCandidates]
    rw [show (runPositions board size r0 c0 d).length + 1 - MIN_EQ_LEN = 0 from by omega,
      show List.range' MIN_EQ_LEN 0 = [] from rfl, List.findSome?_nil]
    dsimp only
    exact boundaryIf_eq board size sym r0 c0 d

/-- `check_win_board` computes exactly the spec-side scan. -/
theorem find_win_eq_spec (board : List (List Char)) (size : ℕ) (sym : Char) :
    find_win board size sym = find_win_spec board size sym := by
  by_cases hb : board = []
  · subst hb
    unfold find_win find_win_spec
    rw [if_pos rfl]
    symm
    rw [List.findSome?_eq_none_iff]
    intro r0 hr0
    rw [List.findSome?_eq_none_iff]
    intro c0 hc0
    rw [List.findSome?_eq_none_iff]
    intro dd hdd
    have hcell : ∀ p : ℤ × ℤ, cellAt [] size p = none := by
      intro p
      unfold cellAt
      split_ifs with h
      · rfl
      · rfl
    have hrun : runPositions [] size r0 c0 dd = [] := by
      unfold runPositions
      cases hray : rayPos size r0 c0 dd with
      | nil => rfl
      | cons a l =>
        rw [List.takeWhile_cons_of_neg]
        simp [keepCell, hcell]
    have hlen0 : (runPositions [] size r0 c0 dd).length = 0 := by rw [hrun]; rfl
    have hin : inBounds size (posAt r0 c0 dd 0) := by
      have hr : r0 < size := List.mem_range.mp hr0
      have hc : c0 < size := List.mem_range.mp hc0
      unfold inBounds posAt
      push_cast
      refine ⟨⟨?_, ?_⟩, ⟨?_, ?_⟩⟩ <;> omega
    have hnv : ¬ validatingBoundary [] size r0 c0 dd := by
      simp only [validatingBoundary]
      rw [hlen0]
      rintro ⟨-, h | h⟩
      · exact h hin
      · rw [hcell] at h
        exact Option.noConfusion h
    simp only [rayCandidates]
    rw [hlen0, show List.range' MIN_EQ_LEN (0 + 1 - MIN_EQ_LEN) = [] from rfl,
      List.findSome?_nil]
    dsimp only
    rw [if_neg hnv]
  · unfold find_win find_win_spec
    rw [if_neg hb]
    simp only [scanStep_eq_rayCandidates]

/-- What a successful `tryWin` guarantees: the run was long enough, the
returned coordinates are the walked coordinates, and the returned text
validates to the returned solution. -/
theorem tryWin_facts (raw : List Char) (coords : List (ℤ × ℤ)) (sym : Char) (w : WinResult)
    (h : tryWin raw coords sym = some w) :
    MIN_EQ_LEN ≤ raw.length ∧ w.coordinates = coords ∧
      is_valid_equation w.equationText sym = some w.solution := by
  unfold tryWin at h
  split_ifs at h with h1
  · refine ⟨h1, ?_⟩
    cases hf : is_valid_equation raw sym with
    | some sol =>
      rw [hf] at h
      dsimp only at h
      injection h with h2
      rw [← h2]
      exact ⟨rfl, hf⟩
    | none =>
      rw [hf] at h
      dsimp only at h
      cases hr : is_valid_equation raw.reverse sym with
      | some sol =>
        rw [hr] at h
        dsimp only at h
        injection h with h2
        rw [← h2]
        exact ⟨rfl, hr⟩
      | none =>
        rw [hr] at h
        exact Option.noConfusion h

/-- Any win a ray reports comes from validating a prefix of the Run of
length at least `MIN_EQ_LEN`: a successful boundary validation re-validates
the full Run, which is itself one of the enumerated prefixes. -/
theorem rayCandidates_event (board : List (List Char)) (size : ℕ) (sym : Char) (r0 c0 : ℕ)
    (d : ℤ × ℤ) (w : WinResult)
    (h : rayCandidates board size sym r0 c0 d = some w) :
    ∃ L, MIN_EQ_LEN ≤ L ∧ L ≤ (runPositions board size r0 c0 d).length ∧
      tryWin ((runChars board size r0 c0 d).take L)
        ((runPositions board size r0 c0 d).take L) sym = some w := by
  have hM : MIN_EQ_LEN = 5 := rfl
  have hrclen : (runChars board size r0 c0 d).length =
      (runPositions board size r0 c0 d).length := by
    simp only [runChars, List.length_map]
  simp only [rayCandidates] at h
  cases hfs : (List.range' MIN_EQ_LEN
      ((runPositions board size r0 c0 d).length + 1 - MIN_EQ_LEN)).findSome?
      (fun L => tryWin ((runChars board size r0 c0 d).take L)
        ((runPositions board size r0 c0 d).take L) sym) with
  | some w2 =>
    rw [hfs] at h
    dsimp only at h
    injection h with h2
    obtain ⟨L, hLmem, htw⟩ := List.exists_of_findSome?_eq_some hfs
    obtain ⟨i, hi, hieq⟩ := List.mem_range'.mp hLmem
    refine ⟨L, by omega, by omega, ?_⟩
    rw [h2] at htw
    exact htw
  | none =>
    rw [hfs] at h
    dsimp only at h
    split_ifs at h with hv
    · obtain ⟨hge, -, -⟩ := tryWin_facts _ _ _ _ h
      have hn : MIN_EQ_LEN ≤ (runPositions board size r0 c0 d).length := by
        rw [← hrclen]; exact hge
      refine ⟨(runPositions board size r0 c0 d).length, hn, le_refl _, ?_⟩
      rw [show (runChars board size r0 c0 d).take (runPositions board size r0 c0 d).length =
          runChars board size r0 c0 d from by rw [← hrclen]; exact List.take_length _,
        List.take_length]
      exact h

/-- A `findSome?` over a list cannot be `none` if some member succeeds. -/
theorem findSome_ne_none_of_mem {α β : Type} (l : List α) (f : α → Option β) (a : α)
    (ha : a ∈ l) (hb : f a ≠ none) : l.findSome? f ≠ none := by
  intro hn
  exact hb (List.findSome?_eq_none_iff.mp hn a ha)

/-- C2: `check_win_board` (embedded as `find_win`) examines origins in
row-major order and, per origin, the 8 directions in the fixed order
(0,1),(1,0),(1,1),(1,-1),(0,-1),(-1,0),(-1,-1),(-1,1); along each ray it
validates every Run prefix as soon as the length reaches `MIN_EQ_LEN` and
at every extension after that, forward before reversed, plus a boundary
validation of the accumulated Run at a board-edge or empty-cell stop; it
returns the first `WinResult` under this ordering and reports no win only
after exhausting all origins and directions — i.e. it coincides with the
spec-side scan `find_win_spec` built from `rayCandidates`. -/
theorem claim2_scan_order (board : List (List Char)) (size : ℕ) (sym : Char) :
    find_win board size sym = find_win_spec board size sym :=
  find_win_eq_spec board size sym

/-- C8: whenever `find_win` reports a win, `validate` (embedded as
`is_valid_equation`) on the returned equation text returns exactly the
returned solution. -/
theorem claim8_soundness (board : List (List Char)) (size : ℕ) (sym : Char) (w : WinResult)
    (h : find_win board size sym = some w) :
    is_valid_equation w.equationText sym = some w.solution := by
  rw [find_win_eq_spec] at h
  unfold find_win_spec at h
  obtain ⟨r0, hr0, h⟩ := List.exists_of_findSome?_eq_some h
  obtain ⟨c0, hc0, h⟩ := List.exists_of_findSome?_eq_some h
  obtain ⟨dd, hdd, h⟩ := List.exists_of_findSome?_eq_some h
  obtain ⟨L, hL5, hLle, htw⟩ := rayCandidates_event board size sym r0 c0 dd w h
  exact (tryWin_facts _ _ _ _ htw).2.2

/-- C4 (amended): for two boards of the same size that agree on every cell
of the winning line found on the first board, a win is still reported on
the second board (though possibly a different `WinResult`, found earlier
in the scan order). -/
theorem claim4_amended_win_transfers (b1 b2 : List (List Char)) (size : ℕ) (sym : Char)
    (w : WinResult)
    (h1 : find_win b1 size sym = some w)
    (hagree : ∀ p ∈ w.coordinates, cellAt b2 size p = cellAt b1 size p) :
    ∃ w2, find_win b2 size sym = some w2 := by
  have hM : MIN_EQ_LEN = 5 := rfl
  rw [find_win_eq_spec] at h1
  rw [find_win_eq_spec]
  unfold find_win_spec at h1
  obtain ⟨r0, hr0, h1⟩ := List.exists_of_findSome?_eq_some h1
  obtain ⟨c0, hc0, h1⟩ := List.exists_of_findSome?_eq_some h1
  obtain ⟨dd, hdd, h1⟩ := List.exists_of_findSome?_eq_some h1
  obtain ⟨L, hL5, hLle, htw⟩ := rayCandidates_event b1 size sym r0 c0 dd w h1
  obtain ⟨-, hcoords, -⟩ := tryWin_facts _ _ _ _ htw
  obtain ⟨hlen1, hpos1, hkeep1, hstop1⟩ := runPositions_facts b1 size r0 c0 dd
  obtain ⟨hlen2, hpos2, hkeep2, hstop2⟩ := runPositions_facts b2 size r0 c0 dd
  have hmem : ∀ i, i < L → posAt r0 c0 dd i ∈ w.coordinates := by
    intro i hi
    rw [hcoords, hpos1, take_map_range' _ L _ hLle]
    exact List.mem_map.mpr ⟨i, List.mem_range'.mpr ⟨i, hi, by omega⟩, rfl⟩
  have hcellagree : ∀ i, i < L →
      cellAt b2 size (posAt r0 c0 dd i) = cellAt b1 size (posAt r0 c0 dd i) :=
    fun i hi => hagree _ (hmem i hi)
  have hkeepagree : ∀ i, i < L →
      keepCell b2 size (posAt r0 c0 dd i) = keepCell b1 size (posAt r0 c0 dd i) := by
    intro i hi
    unfold keepCell
    rw [hcellagree i hi]
  have hLle2 : L ≤ (runPositions b2 size r0 c0 dd).length := by
    by_contra hlt
    push_neg at hlt
    have hn2 : (runPositions b2 size r0 c0 dd).length < size := by omega
    have hs := hstop2 hn2
    rw [hkeepagree _ (by omega)] at hs
    exact hs (hkeep1 _ (by omega))
  have hrp : (runPositions b2 size r0 c0 dd).take L = (runPositions b1 size r0 c0 dd).take L := by
    rw [hpos1, hpos2, take_map_range' _ L _ hLle2, take_map_range' _ L _ hLle]
  have hrc : (runChars b2 size r0 c0 dd).take L = (runChars b1 size r0 c0 dd).take L := by
    unfold runChars
    rw [← List.map_take, ← List.map_take, hrp]
    refine List.map_congr_left ?_
    intro p hp
    rw [hpos1, take_map_range' _ L _ hLle] at hp
    obtain ⟨i, hi, rfl⟩ := List.mem_map.mp hp
    obtain ⟨j, hj, hji⟩ := List.mem_range'.mp hi
    rw [hcellagree i (by omega)]
  have htw2 : tryWin ((runChars b2 size r0 c0 dd).take L)
      ((runPositions b2 size r0 c0 dd).take L) sym = some w := by
    rw [hrp, hrc]
    exact htw
  have hray : rayCandidates b2 size sym r0 c0 dd ≠ none := by
    intro hnone
    simp only [rayCandidates] at hnone
    cases hfs : (List.range' MIN_EQ_LEN
        ((runPositions b2 size r0 c0 dd).length + 1 - MIN_EQ_LEN)).findSome?
        (fun L => tryWin ((runChars b2 size r0 c0 dd).take L)
          ((runPositions b2 size r0 c0 dd).take L) sym) with
    | some w2 =>
      rw [hfs] at hnone
      dsimp only at hnone
      exact Option.noConfusion hnone
    | none =>
      have hmemL : L ∈ List.range' MIN_EQ_LEN
          ((runPositions b2 size r0 c0 dd).length + 1 - MIN_EQ_LEN) :=
        List.mem_range'.mpr ⟨L - MIN_EQ_LEN, by omega, by omega⟩
      have hev := List.findSome?_eq_none_iff.mp hfs L hmemL
      rw [htw2] at hev
      exact Option.noConfusion hev
  have h2 : find_win_spec b2 size sym ≠ none := by
    unfold find_win_spec
    refine findSome_ne_none_of_mem _ _ r0 hr0 ?_
    refine findSome_ne_none_of_mem _ _ c0 hc0 ?_
    refine findSome_ne_none_of_mem _ _ dd hdd ?_
    exact hray
  obtain ⟨w2, hw2⟩ := Option.ne_none_iff_exists'.mp h2
  exact ⟨w2, hw2⟩

/-- Witness for C8 at a concrete board: the win found on `winBoard` is
the row-0 run "x+2=5", and validating it yields its reported solution 3. -/
theorem claim8_soundness_witness :
    is_valid_equation (WinResult.equationText
        ⟨[((0 : ℤ), (0 : ℤ)), (0, 1), (0, 2), (0, 3), (0, 4)],
          ['x', '+', '2', '=', '5'], 3⟩) 'x' =
      some (WinResult.solution
        ⟨[((0 : ℤ), (0 : ℤ)), (0, 1), (0, 2), (0, 3), (0, 4)],
          ['x', '+', '2', '=', '5'], 3⟩) :=
  claim8_soundness winBoard 5 'x'
    ⟨[((0 : ℤ), (0 : ℤ)), (0, 1), (0, 2), (0, 3), (0, 4)],
      ['x', '+', '2', '=', '5'], 3⟩ (by decide)

/-- Witness for the amended C4 at concrete boards: `winBoardAlt` differs
from `winBoard` only at a cell outside the winning line, agrees on the
line itself, and a win is still reported on it. -/
theorem claim4_amended_win_transfers_witness :
    ∃ w2, find_win winBoardAlt 5 'x' = some w2 :=
  claim4_amended_win_transfers winBoard winBoardAlt 5 'x'
    ⟨[((0 : ℤ), (0 : ℤ)), (0, 1), (0, 2), (0, 3), (0, 4)],
      ['x', '+', '2', '=', '5'], 3⟩ (by decide) (by decide)

end EquaGrid
